import Mathlib

/- Verification development for the collective-communication layer declared in
   include/LightGBM/network.h: BruckMap, RecursiveHalvingMap and the static
   Network class (Allreduce, AllreduceByAllGather, Allgather, ReduceScatter).

   The header only declares the collectives; their bodies live outside the
   sources available here, so the operational definitions below are modelled
   from the specification (each such definition says so in its doc comment).
   Byte buffers are modelled as `List Nat`; a reduction function
   `ReduceFunction(src, dst, len)` that combines `src` into `dst` element-wise
   is modelled by a byte-level operation `f : Nat → Nat → Nat` applied
   pointwise with `dst` as the first argument. -/

namespace LightGBM

/-- Combine the source buffer into the destination buffer with the
element-wise reducer `f` (destination is the first argument, matching the
`ReduceFunction(src, dst, len)` contract of meta.h). -/
def combine (f : Nat → Nat → Nat) (dst src : List Nat) : List Nat :=
  List.zipWith f dst src

/-- Reduction of a list of buffers via `f`, applied in strict order:
the head is the initial accumulator and the remaining buffers are folded in
from the left. -/
def reduceAll (f : Nat → Nat → Nat) : List (List Nat) → List Nat
  | [] => []
  | b :: bs => bs.foldl (combine f) b

/-- Structural worker for `bruckRounds`: starting from candidate `k`,
find the least round count whose power of two reaches `n`. -/
def bruckRoundsAux : Nat → Nat → Nat → Nat
  | 0, _, k => k
  | fuel + 1, n, k => if 2 ^ k < n then bruckRoundsAux fuel n (k + 1) else k

/-- Modelled from the spec: the communication-round count of the Bruck
all-gather, computed by doubling until the machine count is covered; this is
the least `k` with `n ≤ 2 ^ k` (the body of `BruckMap::Construct`, declared at
network.h:34, is not among the sources). -/
def bruckRounds (n : Nat) : Nat := bruckRoundsAux n n 0

/-- The network structure for all gather, mirroring class BruckMap
(network.h:18): round count `k`, incoming rank and outgoing rank per round. -/
structure BruckMap where
  k : Nat
  in_ranks : List Nat
  out_ranks : List Nat
deriving Repr, DecidableEq

/-- Modelled from the spec: `BruckMap::Construct(rank, n)` (declared at
network.h:34, body not among the sources).  Round `i` sends to
`(rank + 2^i) mod n` and receives from `(rank - 2^i + n) mod n`; with
`2^i < n` for every executed round the receive formula is written with
truncated natural subtraction as `(rank + n - 2^i mod n) mod n`. -/
def BruckMap.Construct (rank n : Nat) : BruckMap :=
  { k := bruckRounds n
  , in_ranks := (List.range (bruckRounds n)).map (fun i => (rank + n - 2 ^ i % n) % n)
  , out_ranks := (List.range (bruckRounds n)).map (fun i => (rank + 2 ^ i) % n) }

/-- Modelled from the spec: one round of the Bruck all-gather.  The global
state maps each rank to the list of contributions gathered so far (in rotated
order, own contribution first).  In round `i` machine `r` keeps its window and
appends the complementary window received from `in_ranks[i]`, so that the
gathered count grows from `min (2^i) n` to `min (2^(i+1)) n`. -/
def bruckStep (n i : Nat) (bufs : Nat → List (List Nat)) : Nat → List (List Nat) :=
  fun r =>
    bufs r ++
      (bufs ((BruckMap.Construct r n).in_ranks.getD i r)).take
        (min (2 ^ (i + 1)) n - min (2 ^ i) n)

/-- Modelled from the spec: run all `k` Bruck rounds starting from the state
in which every machine holds exactly its own contribution. -/
def bruckGather (n : Nat) (contrib : Nat → List Nat) : Nat → List (List Nat) :=
  (List.range (bruckRounds n)).foldl (fun bufs i => bruckStep n i bufs) (fun r => [contrib r])

/-- Modelled from the spec: the all-gather result on machine `r` — after the
`k` rounds a final rotation puts the gathered contributions into ascending
rank order (output slot `m` is filled from gathered slot `(r - m + n) mod n`). -/
def AllgatherBlocks (n : Nat) (contrib : Nat → List Nat) (r : Nat) : List Nat :=
  ((List.range n).map (fun m => (bruckGather n contrib r).getD ((r + n - m) % n) [])).flatten

/-- Modelled from the spec: `Network::Allgather(input, send_size, output)`
(uniform, network.h:129, body not among the sources): every machine
contributes its whole input buffer. -/
def Network.Allgather (n : Nat) (input : Nat → List Nat) (r : Nat) : List Nat :=
  AllgatherBlocks n input r

/-- Modelled from the spec: `Network::Allgather(input, all_size, block_start,
block_len, output)` (non-uniform, network.h:140, body not among the sources):
machine `m` contributes the `block_len m` bytes of its own block. -/
def Network.AllgatherV (n : Nat) (block_len : Nat → Nat) (input : Nat → List Nat)
    (r : Nat) : List Nat :=
  AllgatherBlocks n (fun m => (input m).take (block_len m)) r

/-- Worker for the round counts: `bruckRoundsAux` returns `Nat.clog 2 n` as
soon as the fuel suffices. -/
lemma bruckRoundsAux_eq (n : Nat) :
    ∀ fuel k, Nat.clog 2 n ≤ k + fuel → k ≤ Nat.clog 2 n →
      bruckRoundsAux fuel n k = Nat.clog 2 n := by
  intro fuel
  induction fuel with
  | zero =>
    intro k h1 h2
    have hk : k = Nat.clog 2 n := by omega
    subst hk
    rfl
  | succ fuel ih =>
    intro k h1 h2
    by_cases hc : 2 ^ k < n
    · have hk : k < Nat.clog 2 n := (Nat.pow_lt_iff_lt_clog (by norm_num)).1 hc
      simp only [bruckRoundsAux, if_pos hc]
      exact ih (k + 1) (by omega) (by omega)
    · have hk : Nat.clog 2 n ≤ k := by
        have hn : n ≤ 2 ^ k := by omega
        exact (Nat.le_pow_iff_clog_le (by norm_num)).1 hn
      simp only [bruckRoundsAux, if_neg hc]
      omega

/-- The ceiling base-2 logarithm is bounded by its argument. -/
lemma clog_two_le_self (n : Nat) : Nat.clog 2 n ≤ n := by
  have h : n ≤ 2 ^ n := Nat.le_of_lt (Nat.lt_two_pow n)
  exact (Nat.le_pow_iff_clog_le (by norm_num)).1 h

/-- The loop-computed round count agrees with the ceiling base-2 logarithm. -/
lemma bruckRounds_eq_clog (n : Nat) : bruckRounds n = Nat.clog 2 n := by
  have h : Nat.clog 2 n ≤ n := clog_two_le_self n
  exact bruckRoundsAux_eq n n 0 (by omega) (by omega)

/-- Every machine count is covered by the computed number of rounds. -/
lemma le_pow_bruckRounds (n : Nat) : n ≤ 2 ^ bruckRounds n := by
  rw [bruckRounds_eq_clog]
  exact Nat.le_pow_clog (by norm_num) n

/-- Executed rounds satisfy `2 ^ i < n`. -/
lemma pow_lt_of_lt_bruckRounds {n i : Nat} (h : i < bruckRounds n) : 2 ^ i < n := by
  rw [bruckRounds_eq_clog] at h
  exact (Nat.pow_lt_iff_lt_clog (by norm_num)).2 h

/-- Reading an in-range position of a tabulated list. -/
lemma getD_map_range {α : Type} (g : Nat → α) {k i : Nat} (d : α) (h : i < k) :
    ((List.range k).map g).getD i d = g i := by
  have hlen : i < ((List.range k).map g).length := by simp [h]
  rw [List.getD_eq_getElem _ _ hlen]
  simp

/-- Reducing the first summand of a rotated index modulo `n`. -/
lemma mod_shift_sub (a j n : Nat) (hn : 0 < n) (hj : j ≤ n) :
    (a % n + n - j) % n = (a + n - j) % n := by
  have hd := Nat.div_add_mod a n
  have hm : a % n < n := Nat.mod_lt _ hn
  have he : a + n - j = (a % n + n - j) + n * (a / n) := by omega
  rw [he, Nat.add_mul_mod_self_left]

/-- Undoing the rotation: the gathered slot `(r - m + n) mod n` holds the
contribution of rank `m`. -/
lemma mod_inv_shift {r m n : Nat} (hr : r < n) (hm : m < n) :
    (r + n - (r + n - m) % n) % n = m := by
  have hd := Nat.div_add_mod (r + n - m) n
  have hlt : (r + n - m) % n < n := Nat.mod_lt _ (by omega)
  have he : r + n - (r + n - m) % n = m + n * ((r + n - m) / n) := by omega
  rw [he, Nat.add_mul_mod_self_left, Nat.mod_eq_of_lt hm]

/-- Unfolding equation for the in-rank list of the constructed Bruck map. -/
lemma Construct_in_ranks (rank n : Nat) :
    (BruckMap.Construct rank n).in_ranks
      = (List.range (bruckRounds n)).map (fun i => (rank + n - 2 ^ i % n) % n) := rfl

/-- Unfolding equation for one application of a Bruck round. -/
lemma bruckStep_apply (n i : Nat) (bufs : Nat → List (List Nat)) (r : Nat) :
    bruckStep n i bufs r
      = bufs r ++
        (bufs ((BruckMap.Construct r n).in_ranks.getD i r)).take
          (min (2 ^ (i + 1)) n - min (2 ^ i) n) := rfl

/-- Invariant of the Bruck gather: after `i` rounds machine `r` holds, in
rotated order (own contribution first), the contributions of the
`min (2^i) n` ranks cyclically preceding it. -/
lemma bruckGather_inv (n : Nat) (hn : 1 ≤ n) (contrib : Nat → List Nat) :
    ∀ i, i ≤ bruckRounds n → ∀ r, r < n →
      (List.range i).foldl (fun bufs j => bruckStep n j bufs) (fun s => [contrib s]) r
        = (List.range (min (2 ^ i) n)).map (fun j => contrib ((r + n - j) % n)) := by
  intro i
  induction i with
  | zero =>
    intro _ r hr
    have hmin : (1 : Nat) ⊓ n = 1 := Nat.min_eq_left hn
    simp [hmin, List.range_succ, Nat.add_mod_right, Nat.mod_eq_of_lt hr]
  | succ i ih =>
    intro hik r hr
    have hi : i < bruckRounds n := by omega
    have h2i : 2 ^ i < n := pow_lt_of_lt_bruckRounds hi
    have hpos : 0 < 2 ^ i := Nat.pos_pow_of_pos i (by norm_num)
    have hpow : 2 ^ (i + 1) = 2 ^ i + 2 ^ i := by rw [Nat.pow_succ]; omega
    have hMge : 2 ^ i ≤ min (2 ^ (i + 1)) n := by
      refine le_min ?_ (Nat.le_of_lt h2i)
      rw [hpow]; exact Nat.le_add_right _ _
    have hMle : min (2 ^ (i + 1)) n ≤ n := Nat.min_le_right _ _
    have hMle2 : min (2 ^ (i + 1)) n ≤ 2 ^ i + 2 ^ i := by
      have := Nat.min_le_left (2 ^ (i + 1)) n
      omega
    rw [List.range_succ, List.foldl_append]
    simp only [List.foldl_cons, List.foldl_nil]
    rw [bruckStep_apply]
    set inr := (BruckMap.Construct r n).in_ranks.getD i r with hinrdef
    have hinr : inr = (r + n - 2 ^ i) % n := by
      rw [hinrdef, Construct_in_ranks, getD_map_range _ _ hi, Nat.mod_eq_of_lt h2i]
    have hinrlt : inr < n := by rw [hinr]; exact Nat.mod_lt _ (by omega)
    rw [ih (by omega) r hr, ih (by omega) inr hinrlt]
    have hminle : min (2 ^ i) n = 2 ^ i := Nat.min_eq_left (Nat.le_of_lt h2i)
    rw [hminle, ← List.map_take, List.take_range]
    have hcmin : min (min (2 ^ (i + 1)) n - 2 ^ i) (2 ^ i)
        = min (2 ^ (i + 1)) n - 2 ^ i := by omega
    rw [hcmin]
    have hsplit : min (2 ^ (i + 1)) n = 2 ^ i + (min (2 ^ (i + 1)) n - 2 ^ i) := by omega
    conv_rhs => rw [hsplit]
    rw [List.range_add, List.map_append, List.map_map]
    congr 1
    apply List.map_congr_left
    intro j hj
    have hjc : j < min (2 ^ (i + 1)) n - 2 ^ i := List.mem_range.1 hj
    have hjn : 2 ^ i + j < n := by omega
    simp only [Function.comp]
    rw [hinr, mod_shift_sub _ _ _ (by omega) (by omega)]
    have h1 : r + n - 2 ^ i + n - j = (r + n - (2 ^ i + j)) + n := by omega
    rw [h1, Nat.add_mod_right]

/-- Bruck all-gather produces the ascending-rank concatenation of all
contributions on every machine. -/
theorem AllgatherBlocks_spec {n : Nat} (hn : 1 ≤ n) (contrib : Nat → List Nat)
    {r : Nat} (hr : r < n) :
    AllgatherBlocks n contrib r = ((List.range n).map contrib).flatten := by
  have hmin : min (2 ^ bruckRounds n) n = n := by
    have := le_pow_bruckRounds n
    omega
  have hg : bruckGather n contrib r
      = (List.range n).map (fun j => contrib ((r + n - j) % n)) := by
    have h := bruckGather_inv n hn contrib (bruckRounds n) (le_refl _) r hr
    rw [hmin] at h
    exact h
  unfold AllgatherBlocks
  rw [hg]
  congr 1
  apply List.map_congr_left
  intro m hm
  have hm' : m < n := List.mem_range.1 hm
  have hq : (r + n - m) % n < n := Nat.mod_lt _ (by omega)
  rw [getD_map_range _ _ hq, mod_inv_shift hr hm']

/-- The flattened all-gather output has length `n * s` when every
contribution has `s` bytes. -/
lemma flatten_length_const {α : Type} (s : Nat) :
    ∀ (L : List (List α)), (∀ b ∈ L, b.length = s) → L.flatten.length = L.length * s := by
  intro L
  induction L with
  | nil => simp
  | cons b bs ih =>
    intro h
    have hb : b.length = s := h b (by simp)
    have hbs : ∀ x ∈ bs, x.length = s := fun x hx => h x (by simp [hx])
    simp [List.flatten_cons, ih hbs, hb, Nat.succ_mul, Nat.add_comm]

/-- Slicing a flattened list of equal-length blocks recovers block `m`. -/
lemma slice_flatten {α : Type} (s : Nat) :
    ∀ (L : List (List α)) (m : Nat), (∀ b ∈ L, b.length = s) → m < L.length →
      (L.flatten.drop (m * s)).take s = L.getD m [] := by
  intro L
  induction L with
  | nil =>
    intro m _ hm
    simp at hm
  | cons b bs ih =>
    intro m hlen hm
    have hb : b.length = s := hlen b (by simp)
    cases m with
    | zero =>
      simp only [Nat.zero_mul, List.drop_zero, List.flatten_cons, List.getD_cons_zero]
      exact List.take_left' hb
    | succ m =>
      have hms : (m + 1) * s = b.length + m * s := by rw [hb]; ring
      rw [List.flatten_cons, hms, List.drop_append, List.getD_cons_succ]
      exact ih m (fun x hx => hlen x (by simp [hx])) (by simpa using hm)

/-- Modelled from the spec: `Network::AllreduceByAllGather(input, input_size,
output, reducer)` (network.h:119, body not among the sources): gather every
machine's `s`-byte contribution into an `n*s` buffer in ascending rank order,
then fold the `n` gathered contributions into the output with the reducer in
strict ascending-rank order. -/
def Network.AllreduceByAllGather (f : Nat → Nat → Nat) (n s : Nat)
    (input : Nat → List Nat) (r : Nat) : List Nat :=
  reduceAll f ((List.range n).map
    (fun m => ((Network.Allgather n input r).drop (m * s)).take s))

/-- Uniform all-gather: every machine ends with the ascending-rank
concatenation of all machines' contributions. -/
lemma Allgather_spec {n : Nat} (hn : 1 ≤ n) (input : Nat → List Nat)
    {r : Nat} (hr : r < n) :
    Network.Allgather n input r = ((List.range n).map input).flatten :=
  AllgatherBlocks_spec hn input hr

/-- The gather-then-fold all-reduce computes the strict ascending-rank
reduction of all machines' inputs on every machine (for any reducer). -/
lemma AllreduceByAllGather_spec {n s : Nat} (hn : 1 ≤ n) (f : Nat → Nat → Nat)
    (input : Nat → List Nat) (hs : ∀ m, m < n → (input m).length = s)
    {r : Nat} (hr : r < n) :
    Network.AllreduceByAllGather f n s input r
      = reduceAll f ((List.range n).map input) := by
  unfold Network.AllreduceByAllGather
  congr 1
  apply List.map_congr_left
  intro m hm
  have hm' : m < n := List.mem_range.1 hm
  rw [Allgather_spec hn input hr]
  have hlen : ∀ b ∈ (List.range n).map input, b.length = s := by
    intro b hb
    rcases List.mem_map.1 hb with ⟨j, hj, rfl⟩
    exact hs j (List.mem_range.1 hj)
  rw [slice_flatten s _ m hlen (by simpa using hm')]
  rw [List.getD_eq_getElem _ _ (by simpa using hm')]
  simp

/-- Structural worker for `floorLog2`: grow the exponent while the next power
of two still fits below `n`. -/
def floorLog2Aux : Nat → Nat → Nat → Nat
  | 0, _, k => k
  | fuel + 1, n, k => if 2 ^ (k + 1) ≤ n then floorLog2Aux fuel n (k + 1) else k

/-- Modelled from the spec: the exponent of the largest power of two that is
at most `n`, computed by a doubling loop (`k = log2(p)` in the words of the
spec). -/
def floorLog2 (n : Nat) : Nat := floorLog2Aux n n 0

/-- Worker characterisation: `floorLog2Aux` reaches `Nat.log 2 n` whenever the
fuel suffices. -/
lemma floorLog2Aux_eq {n : Nat} (hn : 1 ≤ n) :
    ∀ fuel k, k ≤ Nat.log 2 n → Nat.log 2 n ≤ k + fuel →
      floorLog2Aux fuel n k = Nat.log 2 n := by
  intro fuel
  induction fuel with
  | zero =>
    intro k h1 h2
    have hk : k = Nat.log 2 n := by omega
    subst hk
    rfl
  | succ fuel ih =>
    intro k h1 h2
    by_cases hc : 2 ^ (k + 1) ≤ n
    · have hk : k + 1 ≤ Nat.log 2 n :=
        (Nat.pow_le_iff_le_log (by norm_num) (by omega)).1 hc
      simp only [floorLog2Aux, if_pos hc]
      exact ih (k + 1) hk (by omega)
    · have hk : Nat.log 2 n ≤ k := by
        by_contra hcon
        have h3 : k + 1 ≤ Nat.log 2 n := by omega
        exact hc ((Nat.pow_le_iff_le_log (by norm_num) (by omega)).2 h3)
      simp only [floorLog2Aux, if_neg hc]
      omega

/-- The loop-computed exponent agrees with the floor base-2 logarithm. -/
lemma floorLog2_eq_log {n : Nat} (hn : 1 ≤ n) : floorLog2 n = Nat.log 2 n := by
  have h : Nat.log 2 n ≤ n := Nat.log_le_self 2 n
  exact floorLog2Aux_eq hn n 0 (by omega) (by omega)

/-- The modelled power of two is at most the machine count. -/
lemma pow_floorLog2_le {n : Nat} (hn : 1 ≤ n) : 2 ^ floorLog2 n ≤ n := by
  rw [floorLog2_eq_log hn]
  exact Nat.pow_log_le_self 2 (by omega)

/-- The machine count is below the next power of two. -/
lemma lt_two_pow_floorLog2 {n : Nat} (hn : 1 ≤ n) : n < 2 * 2 ^ floorLog2 n := by
  rw [floorLog2_eq_log hn]
  have h := Nat.lt_pow_succ_log_self (b := 2) (by norm_num) n
  rw [Nat.pow_succ] at h
  omega

/-- Node type on the recursive halving algorithm (network.h:46). -/
inductive RecursiveHalvingNodeType where
  | Normal
  | GroupLeader
  | Other
deriving Repr, DecidableEq

/-- Network structure for the recursive halving algorithm, mirroring class
RecursiveHalvingMap (network.h:53).  Block indices are in units of logical
participant blocks. -/
structure RecursiveHalvingMap where
  k : Nat
  type : RecursiveHalvingNodeType
  neighbor : Int
  ranks : List Nat
  send_block_start : List Nat
  send_block_len : List Nat
  recv_block_start : List Nat
  recv_block_len : List Nat
deriving Repr, DecidableEq

/-- Modelled from the spec: `RecursiveHalvingMap::Construct(rank, n)`
(declared at network.h:82, body not among the sources).  With `p` the largest
power of two at most `n` and `k = log2 p`: the `n - p` extra machines
`p, …, n-1` are each paired with one of the lowest-indexed ranks `0, …, n-p-1`
of the `p`-block (extra `p + j` pairs with base `j`); the lower-ranked member
is the GroupLeader, the extra machine is Other, `neighbor` holds the partner
rank; every other machine is Normal with no neighbor (`-1`).  For the `p`
logical participants, round `i` pairs each with the partner in the other half
of its current `2^(k-i)`-sized window; the half containing the participant is
retained (`recv` range), the other half is shipped (`send` range).  Other
machines take part in no round, so their per-round arrays are empty. -/
def RecursiveHalvingMap.Construct (rank n : Nat) : RecursiveHalvingMap :=
  if 2 ^ floorLog2 n ≤ rank then
    { k := floorLog2 n
    , type := RecursiveHalvingNodeType.Other
    , neighbor := (rank : Int) - (2 ^ floorLog2 n : Nat)
    , ranks := []
    , send_block_start := []
    , send_block_len := []
    , recv_block_start := []
    , recv_block_len := [] }
  else
    { k := floorLog2 n
    , type := if rank < n - 2 ^ floorLog2 n then RecursiveHalvingNodeType.GroupLeader
              else RecursiveHalvingNodeType.Normal
    , neighbor := if rank < n - 2 ^ floorLog2 n then ((rank + 2 ^ floorLog2 n : Nat) : Int)
                  else -1
    , ranks := (List.range (floorLog2 n)).map (fun i =>
        if rank % 2 ^ (floorLog2 n - i) < 2 ^ (floorLog2 n - 1 - i)
        then rank + 2 ^ (floorLog2 n - 1 - i)
        else rank - 2 ^ (floorLog2 n - 1 - i))
    , send_block_start := (List.range (floorLog2 n)).map (fun i =>
        if rank % 2 ^ (floorLog2 n - i) < 2 ^ (floorLog2 n - 1 - i)
        then rank - rank % 2 ^ (floorLog2 n - i) + 2 ^ (floorLog2 n - 1 - i)
        else rank - rank % 2 ^ (floorLog2 n - i))
    , send_block_len := (List.range (floorLog2 n)).map (fun i => 2 ^ (floorLog2 n - 1 - i))
    , recv_block_start := (List.range (floorLog2 n)).map (fun i =>
        if rank % 2 ^ (floorLog2 n - i) < 2 ^ (floorLog2 n - 1 - i)
        then rank - rank % 2 ^ (floorLog2 n - i)
        else rank - rank % 2 ^ (floorLog2 n - i) + 2 ^ (floorLog2 n - 1 - i))
    , recv_block_len := (List.range (floorLog2 n)).map (fun i => 2 ^ (floorLog2 n - 1 - i)) }

/-- Group (logical participant) owning original block `j`: blocks below `p`
belong to the participant of the same rank, block `p + j` of an extra machine
belongs to its leader `j`. -/
def blockGroup (p j : Nat) : Nat := if j < p then j else j - p

/-- Modelled from the spec: phase 0 of reduce-scatter for non-power-of-two
machine counts — each Other machine ships its full share to its GroupLeader,
which folds it into its own copy; Normal participants keep their own copy. -/
def rhPhase0 (f : Nat → Nat → Nat) (n p : Nat) (B : Nat → Nat → List Nat) :
    Nat → Nat → List Nat :=
  fun l j => if l < n - p then combine f (B l j) (B (p + l) j) else B l j

/-- Modelled from the spec: round `i` of the recursive halving among the `p`
logical participants.  Participant `l` exchanges with the partner `ranks[i]`
of its map; blocks whose group lies in the retained (`recv`) range are folded
with the partner's copy, all other blocks are left untouched (they were
shipped away). -/
def rhRound (f : Nat → Nat → Nat) (n p i : Nat)
    (val : Nat → Nat → List Nat) : Nat → Nat → List Nat :=
  fun l j =>
    if (RecursiveHalvingMap.Construct l n).recv_block_start.getD i 0 ≤ blockGroup p j ∧
        blockGroup p j < (RecursiveHalvingMap.Construct l n).recv_block_start.getD i 0 +
          (RecursiveHalvingMap.Construct l n).recv_block_len.getD i 0 then
      combine f (val l j) (val ((RecursiveHalvingMap.Construct l n).ranks.getD i l) j)
    else val l j

/-- Modelled from the spec: phase 0 followed by the `k` halving rounds. -/
def rhRun (f : Nat → Nat → Nat) (n p k : Nat) (B : Nat → Nat → List Nat) :
    Nat → Nat → List Nat :=
  (List.range k).foldl (fun val i => rhRound f n p i val) (rhPhase0 f n p B)

/-- Modelled from the spec: after the rounds, participant `r < p` is left with
exactly its own block; an extra machine `r ≥ p` is handed its block by its
leader `r - p`. -/
def ReduceScatterBlocks (f : Nat → Nat → Nat) (n : Nat) (B : Nat → Nat → List Nat)
    (r : Nat) : List Nat :=
  if r < 2 ^ floorLog2 n then rhRun f n (2 ^ floorLog2 n) (floorLog2 n) B r r
  else rhRun f n (2 ^ floorLog2 n) (floorLog2 n) B (r - 2 ^ floorLog2 n) r

/-- Modelled from the spec: `Network::ReduceScatter(input, input_size,
block_start, block_len, output, reducer)` (network.h:152, body not among the
sources), with the per-machine blocks cut out of the logically identical
pre-partitioned input. -/
def Network.ReduceScatter (f : Nat → Nat → Nat) (n : Nat) (input : Nat → List Nat)
    (block_start block_len : Nat → Nat) (r : Nat) : List Nat :=
  ReduceScatterBlocks f n
    (fun m j => ((input m).drop (block_start j)).take (block_len j)) r

/-- Associativity of the byte-level reducer lifts to buffers. -/
lemma combine_assoc {f : Nat → Nat → Nat}
    (hf : ∀ a b c, f (f a b) c = f a (f b c)) :
    ∀ a b c, combine f (combine f a b) c = combine f a (combine f b c) := by
  intro a
  induction a with
  | nil => intro b c; rfl
  | cons x a ih =>
    intro b c
    cases b with
    | nil => rfl
    | cons y b =>
      cases c with
      | nil => rfl
      | cons z c =>
        show f (f x y) z :: List.zipWith f (List.zipWith f a b) c
            = f x (f y z) :: List.zipWith f a (List.zipWith f b c)
        rw [hf]
        congr 1
        exact ih b c

/-- Commutativity of the byte-level reducer lifts to buffers. -/
lemma combine_comm {f : Nat → Nat → Nat} (hf : ∀ a b, f a b = f b a) :
    ∀ a b, combine f a b = combine f b a := by
  intro a b
  exact List.zipWith_comm_of_comm f hf a b

/-- One step of a nonempty buffer fold: the first buffer seeds the
accumulator, later ones are folded in with the reducer. -/
def mergeOpt (f : Nat → Nat → Nat) : Option (List Nat) → List Nat → Option (List Nat)
  | none, x => some x
  | some a, x => some (combine f a x)

/-- Fold of a list of buffers via the reducer; `none` exactly when the list
is empty. -/
def foldRed (f : Nat → Nat → Nat) (bs : List (List Nat)) : Option (List Nat) :=
  bs.foldl (mergeOpt f) none

/-- Folding from a seeded accumulator is an ordinary buffer fold. -/
lemma foldl_mergeOpt_some (f : Nat → Nat → Nat) :
    ∀ (L : List (List Nat)) (a : List Nat),
      List.foldl (mergeOpt f) (some a) L = some (List.foldl (combine f) a L) := by
  intro L
  induction L with
  | nil => intro a; rfl
  | cons x L ih => intro a; simp [List.foldl_cons, mergeOpt, ih]

/-- The fold of a nonempty list of buffers. -/
lemma foldRed_cons (f : Nat → Nat → Nat) (b : List Nat) (bs : List (List Nat)) :
    foldRed f (b :: bs) = some (List.foldl (combine f) b bs) := by
  simp [foldRed, List.foldl_cons, mergeOpt, foldl_mergeOpt_some]

/-- The nonempty fold agrees with `reduceAll`. -/
lemma foldRed_eq_reduceAll (f : Nat → Nat → Nat) (b : List Nat) (bs : List (List Nat)) :
    foldRed f (b :: bs) = some (reduceAll f (b :: bs)) :=
  foldRed_cons f b bs

/-- An accumulator absorbs a whole folded list in one combine (needs
associativity). -/
lemma foldl_combine_assoc {f : Nat → Nat → Nat}
    (hf : ∀ a b c, f (f a b) c = f a (f b c)) :
    ∀ (cs : List (List Nat)) (a c0 : List Nat),
      List.foldl (combine f) (combine f a c0) cs
        = combine f a (List.foldl (combine f) c0 cs) := by
  intro cs
  induction cs with
  | nil => intro a c0; rfl
  | cons x cs ih =>
    intro a c0
    simp only [List.foldl_cons]
    rw [combine_assoc hf a c0 x, ih]

/-- A seeded fold over a list with a known fold value. -/
lemma foldl_mergeOpt_some_of {f : Nat → Nat → Nat}
    (hf : ∀ a b c, f (f a b) c = f a (f b c)) (X : List (List Nat)) (v : List Nat)
    (hX : foldRed f X = some v) (a0 : List Nat) :
    List.foldl (mergeOpt f) (some a0) X = some (combine f a0 v) := by
  cases X with
  | nil => simp [foldRed] at hX
  | cons x xs =>
    rw [foldRed_cons] at hX
    injection hX with hv
    rw [List.foldl_cons]
    show List.foldl (mergeOpt f) (some (combine f a0 x)) xs = _
    rw [foldl_mergeOpt_some, foldl_combine_assoc hf, hv]

/-- Folds over concatenations combine (needs associativity). -/
lemma foldRed_append {f : Nat → Nat → Nat}
    (hf : ∀ a b c, f (f a b) c = f a (f b c)) (A C : List (List Nat)) (a c : List Nat)
    (hA : foldRed f A = some a) (hC : foldRed f C = some c) :
    foldRed f (A ++ C) = some (combine f a c) := by
  cases A with
  | nil => simp [foldRed] at hA
  | cons x xs =>
    unfold foldRed
    rw [List.foldl_append]
    have h1 : List.foldl (mergeOpt f) none (x :: xs) = some a := hA
    rw [h1]
    exact foldl_mergeOpt_some_of hf C c hC a

/-- Buffer folds are invariant under permutation when the reducer is
associative and commutative. -/
lemma foldRed_perm {f : Nat → Nat → Nat}
    (hfa : ∀ a b c, f (f a b) c = f a (f b c)) (hfc : ∀ a b, f a b = f b a)
    {A C : List (List Nat)} (hp : A.Perm C) : foldRed f A = foldRed f C := by
  refine List.Perm.foldl_eq' hp ?_ none
  intro x _ y _ z
  cases z with
  | none => simp [mergeOpt, combine_comm hfc]
  | some a =>
    simp only [mergeOpt, Option.some.injEq]
    rw [combine_assoc hfa, combine_assoc hfa, combine_comm hfc x y]

/-- Doubling a stride splits an arithmetic progression into its even and odd
halves. -/
lemma range_interleave (c h : Nat) :
    ∀ M : Nat, ((List.range (2 * M)).map (fun t => c + h * t)).Perm
      (((List.range M).map (fun t => c + 2 * h * t)) ++
        ((List.range M).map (fun t => c + h + 2 * h * t))) := by
  intro M
  induction M with
  | zero => simp
  | succ M ih =>
    have h2 : 2 * (M + 1) = 2 * M + 1 + 1 := by ring
    rw [h2, List.range_succ, List.range_succ, List.range_succ]
    rw [List.map_append, List.map_append, List.map_append, List.map_append]
    have hx : (List.map (fun t => c + h * t) [2 * M + 1]) = [c + h + 2 * h * M] := by
      simp; ring
    have hy : (List.map (fun t => c + h * t) [2 * M]) = [c + 2 * h * M] := by
      simp; ring
    have ha : List.map (fun t => c + 2 * h * t) [M] = [c + 2 * h * M] := by simp
    have hb2 : List.map (fun t => c + h + 2 * h * t) [M] = [c + h + 2 * h * M] := by simp
    rw [List.append_assoc, hx, hy, ha, hb2]
    set A := List.map (fun t => c + 2 * h * t) (List.range M)
    set B := List.map (fun t => c + h + 2 * h * t) (List.range M)
    set x := c + 2 * h * M
    set y := c + h + 2 * h * M
    have s1 : (List.map (fun t => c + h * t) (List.range (2 * M)) ++ ([x] ++ [y])).Perm
        ((A ++ B) ++ ([x] ++ [y])) := List.Perm.append_right _ ih
    have e1 : (A ++ [x]) ++ (B ++ [y]) = A ++ ([x] ++ B ++ [y]) := by
      simp [List.append_assoc]
    have p2 : ([x] ++ B ++ [y]).Perm (B ++ [x] ++ [y]) :=
      List.Perm.append_right [y] List.perm_append_comm
    have p3 : (A ++ ([x] ++ B ++ [y])).Perm (A ++ (B ++ [x] ++ [y])) :=
      List.Perm.append_left A p2
    have e2 : (A ++ B) ++ ([x] ++ [y]) = A ++ (B ++ [x] ++ [y]) := by
      simp [List.append_assoc]
    rw [e1]
    refine List.Perm.trans ?_ p3.symm
    rw [← e2]
    exact s1

/-- Quotient and remainder read off an explicit decomposition. -/
lemma div_mod_of_decomp {x a b m : Nat} (hm : 0 < m) (hx : x = m * a + b) (hb : b < m) :
    x / m = a ∧ x % m = b := by
  subst hx
  constructor
  · rw [Nat.mul_add_div hm, Nat.div_eq_of_lt hb]
    omega
  · rw [Nat.mul_add_mod, Nat.mod_eq_of_lt hb]

/-- Membership in the `m`-aligned chunk containing `l` is equality of the
quotients. -/
lemma chunk_mem_iff {g l m : Nat} (hm : 0 < m) :
    (l - l % m ≤ g ∧ g < l - l % m + m) ↔ g / m = l / m := by
  have hl := Nat.div_add_mod l m
  have hlm : l % m < m := Nat.mod_lt _ hm
  have hg := Nat.div_add_mod g m
  have hgm : g % m < m := Nat.mod_lt _ hm
  constructor
  · rintro ⟨h1, h2⟩
    have hx : g = m * (l / m) + (g - (l - l % m)) := by omega
    exact (div_mod_of_decomp hm hx (by omega)).1
  · intro h
    rw [← h] at hl
    omega

/-- In the lower half of its double chunk, the small and large remainders
agree. -/
lemma mod_small_of_lt {l h : Nat} (hb : l % (2 * h) < h) : l % h = l % (2 * h) := by
  have hd : h ∣ 2 * h := ⟨2, by ring⟩
  rw [← Nat.mod_mod_of_dvd l hd, Nat.mod_eq_of_lt hb]

/-- In the upper half of its double chunk, the small remainder is the large
one shifted down. -/
lemma mod_large_of_ge {l h : Nat} (hh : 0 < h) (hb : h ≤ l % (2 * h)) :
    l % h = l % (2 * h) - h := by
  have hd : h ∣ 2 * h := ⟨2, by ring⟩
  have h2 : l % (2 * h) < 2 * h := Nat.mod_lt _ (by omega)
  rw [← Nat.mod_mod_of_dvd l hd, Nat.mod_eq_sub_mod hb, Nat.mod_eq_of_lt (by omega)]

/-- Division and remainder of the upper butterfly partner. -/
lemma partner_div_low {l h : Nat} (hh : 0 < h) (hb : l % (2 * h) < h) :
    (l + h) / (2 * h) = l / (2 * h) ∧ (l + h) % (2 * h) = l % (2 * h) + h := by
  have hd := Nat.div_add_mod l (2 * h)
  exact div_mod_of_decomp (by omega) (by omega) (by omega)

/-- Division and remainder of the lower butterfly partner. -/
lemma partner_div_high {l h : Nat} (hh : 0 < h) (hb : h ≤ l % (2 * h)) :
    (l - h) / (2 * h) = l / (2 * h) ∧ (l - h) % (2 * h) = l % (2 * h) - h := by
  have hd := Nat.div_add_mod l (2 * h)
  have hm : l % (2 * h) < 2 * h := Nat.mod_lt _ (by omega)
  exact div_mod_of_decomp (by omega) (by omega) (by omega)

/-- Aligned chunks do not cross a multiple of the chunk size. -/
lemma chunk_end_le {l m p : Nat} (hm : 0 < m) (hdvd : m ∣ p) (hl : l < p) :
    l - l % m + m ≤ p := by
  obtain ⟨c, rfl⟩ := hdvd
  have hd := Nat.div_add_mod l m
  have hlm : l % m < m := Nat.mod_lt _ hm
  have h1 : l / m < c := by
    by_contra hcon
    push_neg at hcon
    have h2 : m * c ≤ m * (l / m) := Nat.mul_le_mul_left m hcon
    omega
  have h3 : m * (l / m + 1) ≤ m * c := Nat.mul_le_mul_left m h1
  rw [Nat.mul_add, Nat.mul_one] at h3
  omega

/-- Equal small quotients give equal double quotients. -/
lemma div_double {g l h : Nat} (hgl : g / h = l / h) : g / (2 * h) = l / (2 * h) := by
  rw [Nat.mul_comm 2 h, ← Nat.div_div_eq_div_mul, ← Nat.div_div_eq_div_mul, hgl]

/-- Splitting a power step out of an exponent difference. -/
lemma pow_sub_succ {k i : Nat} (h : i < k) : 2 ^ (k - i) = 2 * 2 ^ (k - 1 - i) := by
  have he : k - i = (k - 1 - i) + 1 := by omega
  rw [he, Nat.pow_succ]
  ring

/-- Partner rank read off the constructed map (participants only). -/
lemma Construct_ranks_getD {n l i : Nat} (hl : l < 2 ^ floorLog2 n)
    (hi : i < floorLog2 n) (d : Nat) :
    (RecursiveHalvingMap.Construct l n).ranks.getD i d
      = (if l % 2 ^ (floorLog2 n - i) < 2 ^ (floorLog2 n - 1 - i)
         then l + 2 ^ (floorLog2 n - 1 - i) else l - 2 ^ (floorLog2 n - 1 - i)) := by
  unfold RecursiveHalvingMap.Construct
  rw [if_neg (by omega)]
  exact getD_map_range _ _ hi

/-- Retained-range start read off the constructed map (participants only). -/
lemma Construct_recv_start_getD {n l i : Nat} (hl : l < 2 ^ floorLog2 n)
    (hi : i < floorLog2 n) (d : Nat) :
    (RecursiveHalvingMap.Construct l n).recv_block_start.getD i d
      = (if l % 2 ^ (floorLog2 n - i) < 2 ^ (floorLog2 n - 1 - i)
         then l - l % 2 ^ (floorLog2 n - i)
         else l - l % 2 ^ (floorLog2 n - i) + 2 ^ (floorLog2 n - 1 - i)) := by
  unfold RecursiveHalvingMap.Construct
  rw [if_neg (by omega)]
  exact getD_map_range _ _ hi

/-- Retained-range length read off the constructed map (participants only). -/
lemma Construct_recv_len_getD {n l i : Nat} (hl : l < 2 ^ floorLog2 n)
    (hi : i < floorLog2 n) (d : Nat) :
    (RecursiveHalvingMap.Construct l n).recv_block_len.getD i d
      = 2 ^ (floorLog2 n - 1 - i) := by
  unfold RecursiveHalvingMap.Construct
  rw [if_neg (by omega)]
  exact getD_map_range _ _ hi

/-- Shipped-range start read off the constructed map (participants only). -/
lemma Construct_send_start_getD {n l i : Nat} (hl : l < 2 ^ floorLog2 n)
    (hi : i < floorLog2 n) (d : Nat) :
    (RecursiveHalvingMap.Construct l n).send_block_start.getD i d
      = (if l % 2 ^ (floorLog2 n - i) < 2 ^ (floorLog2 n - 1 - i)
         then l - l % 2 ^ (floorLog2 n - i) + 2 ^ (floorLog2 n - 1 - i)
         else l - l % 2 ^ (floorLog2 n - i)) := by
  unfold RecursiveHalvingMap.Construct
  rw [if_neg (by omega)]
  exact getD_map_range _ _ hi

/-- Shipped-range length read off the constructed map (participants only). -/
lemma Construct_send_len_getD {n l i : Nat} (hl : l < 2 ^ floorLog2 n)
    (hi : i < floorLog2 n) (d : Nat) :
    (RecursiveHalvingMap.Construct l n).send_block_len.getD i d
      = 2 ^ (floorLog2 n - 1 - i) := by
  unfold RecursiveHalvingMap.Construct
  rw [if_neg (by omega)]
  exact getD_map_range _ _ hi

/-- Unfolding equation for one application of a halving round. -/
lemma rhRound_apply (f : Nat → Nat → Nat) (n p i : Nat)
    (val : Nat → Nat → List Nat) (l j : Nat) :
    rhRound f n p i val l j
      = if (RecursiveHalvingMap.Construct l n).recv_block_start.getD i 0 ≤ blockGroup p j ∧
            blockGroup p j < (RecursiveHalvingMap.Construct l n).recv_block_start.getD i 0 +
              (RecursiveHalvingMap.Construct l n).recv_block_len.getD i 0 then
          combine f (val l j) (val ((RecursiveHalvingMap.Construct l n).ranks.getD i l) j)
        else val l j := rfl

/-- Invariant of the recursive halving rounds: after `i` rounds participant
`l` holds, for every original block `j` whose group still lies in its
retained window of `2^(floorLog2 n - i)` groups, the fold of the phase-0
copies of the `2^i` participants congruent to `l` modulo the window size. -/
lemma rhRun_inv (f : Nat → Nat → Nat)
    (hfa : ∀ a b c, f (f a b) c = f a (f b c)) (hfc : ∀ a b, f a b = f b a)
    (n : Nat) (B : Nat → Nat → List Nat) :
    ∀ i, i ≤ floorLog2 n → ∀ l, l < 2 ^ floorLog2 n → ∀ j, j < n →
      blockGroup (2 ^ floorLog2 n) j / 2 ^ (floorLog2 n - i) = l / 2 ^ (floorLog2 n - i) →
      foldRed f (((List.range (2 ^ i)).map
          (fun t => l % 2 ^ (floorLog2 n - i) + 2 ^ (floorLog2 n - i) * t)).map
            (fun m => rhPhase0 f n (2 ^ floorLog2 n) B m j))
        = some ((List.range i).foldl
            (fun val i2 => rhRound f n (2 ^ floorLog2 n) i2 val)
            (rhPhase0 f n (2 ^ floorLog2 n) B) l j) := by
  intro i
  induction i with
  | zero =>
    intro _ l hl j hj _
    have hr1 : List.range (2 ^ 0) = [0] := rfl
    rw [hr1]
    simp [foldRed_cons, Nat.mod_eq_of_lt hl]
  | succ i ih =>
    intro hik l hl j hj hgrp
    have hi : i < floorLog2 n := by omega
    have hh : 0 < 2 ^ (floorLog2 n - 1 - i) := Nat.pos_pow_of_pos _ (by norm_num)
    have hL : 2 ^ (floorLog2 n - i) = 2 * 2 ^ (floorLog2 n - 1 - i) := pow_sub_succ hi
    have hk1 : floorLog2 n - (i + 1) = floorLog2 n - 1 - i := by omega
    have hp2 : (2 * 2 ^ (floorLog2 n - 1 - i)) ∣ 2 ^ floorLog2 n := by
      rw [← hL]
      exact pow_dvd_pow 2 (by omega)
    rw [hk1] at hgrp ⊢
    rw [List.range_succ, List.foldl_append]
    simp only [List.foldl_cons, List.foldl_nil]
    rw [rhRound_apply]
    rw [Construct_ranks_getD hl hi, Construct_recv_start_getD hl hi,
      Construct_recv_len_getD hl hi]
    rw [hL]
    have hg : blockGroup (2 ^ floorLog2 n) j < 2 ^ floorLog2 n := by
      unfold blockGroup
      split
      · omega
      · have hp := pow_floorLog2_le (n := n) (by omega)
        have h2p := lt_two_pow_floorLog2 (n := n) (by omega)
        omega
    have hIHl : foldRed f (((List.range (2 ^ i)).map
          (fun t => l % 2 ^ (floorLog2 n - i) + 2 ^ (floorLog2 n - i) * t)).map
            (fun m => rhPhase0 f n (2 ^ floorLog2 n) B m j))
        = some ((List.range i).foldl
            (fun val i2 => rhRound f n (2 ^ floorLog2 n) i2 val)
            (rhPhase0 f n (2 ^ floorLog2 n) B) l j) := by
      refine ih (by omega) l hl j hj ?_
      rw [hL]
      exact div_double hgrp
    rw [hL] at hIHl
    by_cases hside : l % (2 * 2 ^ (floorLog2 n - 1 - i)) < 2 ^ (floorLog2 n - 1 - i)
    · -- lower half: partner is l + h
      have hcl : l % (2 * 2 ^ (floorLog2 n - 1 - i)) = l % 2 ^ (floorLog2 n - 1 - i) :=
        (mod_small_of_lt hside).symm
      have hpart := partner_div_low hh hside
      have hql : l + 2 ^ (floorLog2 n - 1 - i) < 2 ^ floorLog2 n := by
        have hce := chunk_end_le (by omega) hp2 hl
        have hml := Nat.mod_lt l (y := 2 * 2 ^ (floorLog2 n - 1 - i)) (by omega)
        omega
      have hIHq : foldRed f (((List.range (2 ^ i)).map
            (fun t => (l + 2 ^ (floorLog2 n - 1 - i)) % 2 ^ (floorLog2 n - i)
              + 2 ^ (floorLog2 n - i) * t)).map
              (fun m => rhPhase0 f n (2 ^ floorLog2 n) B m j))
          = some ((List.range i).foldl
              (fun val i2 => rhRound f n (2 ^ floorLog2 n) i2 val)
              (rhPhase0 f n (2 ^ floorLog2 n) B) (l + 2 ^ (floorLog2 n - 1 - i)) j) := by
        refine ih (by omega) _ hql j hj ?_
        rw [hL]
        exact (div_double hgrp).trans hpart.1.symm
      rw [hL] at hIHq
      simp only [if_pos hside]
      have hcond : l - l % (2 * 2 ^ (floorLog2 n - 1 - i)) ≤ blockGroup (2 ^ floorLog2 n) j ∧
          blockGroup (2 ^ floorLog2 n) j
            < l - l % (2 * 2 ^ (floorLog2 n - 1 - i)) + 2 ^ (floorLog2 n - 1 - i) := by
        rw [hcl]
        exact (chunk_mem_iff hh).2 hgrp
      rw [if_pos hcond]
      have hcq : (l + 2 ^ (floorLog2 n - 1 - i)) % (2 * 2 ^ (floorLog2 n - 1 - i))
          = l % 2 ^ (floorLog2 n - 1 - i) + 2 ^ (floorLog2 n - 1 - i) := by
        rw [hpart.2, ← hcl]
      rw [hcq] at hIHq
      rw [hcl] at hIHl
      have h2s : 2 ^ (i + 1) = 2 * 2 ^ i := by rw [Nat.pow_succ]; ring
      have hperm : ((List.range (2 ^ (i + 1))).map
            (fun t => l % 2 ^ (floorLog2 n - 1 - i) + 2 ^ (floorLog2 n - 1 - i) * t)).Perm
          (((List.range (2 ^ i)).map
              (fun t => l % 2 ^ (floorLog2 n - 1 - i)
                + 2 * 2 ^ (floorLog2 n - 1 - i) * t)) ++
            ((List.range (2 ^ i)).map
              (fun t => l % 2 ^ (floorLog2 n - 1 - i) + 2 ^ (floorLog2 n - 1 - i)
                + 2 * 2 ^ (floorLog2 n - 1 - i) * t))) := by
        rw [h2s]
        exact range_interleave _ _ _
      have hstep1 := foldRed_perm (f := f) hfa hfc
        (List.Perm.map (fun m => rhPhase0 f n (2 ^ floorLog2 n) B m j) hperm)
      rw [hstep1, List.map_append]
      exact foldRed_append hfa _ _ _ _ hIHl hIHq
    · -- upper half: partner is l - h
      push_neg at hside
      have hch : l % (2 * 2 ^ (floorLog2 n - 1 - i))
          = l % 2 ^ (floorLog2 n - 1 - i) + 2 ^ (floorLog2 n - 1 - i) := by
        have := mod_large_of_ge hh hside
        omega
      have hpart := partner_div_high hh hside
      have hqlt : l - 2 ^ (floorLog2 n - 1 - i) < 2 ^ floorLog2 n := by omega
      have hIHq : foldRed f (((List.range (2 ^ i)).map
            (fun t => (l - 2 ^ (floorLog2 n - 1 - i)) % 2 ^ (floorLog2 n - i)
              + 2 ^ (floorLog2 n - i) * t)).map
              (fun m => rhPhase0 f n (2 ^ floorLog2 n) B m j))
          = some ((List.range i).foldl
              (fun val i2 => rhRound f n (2 ^ floorLog2 n) i2 val)
              (rhPhase0 f n (2 ^ floorLog2 n) B) (l - 2 ^ (floorLog2 n - 1 - i)) j) := by
        refine ih (by omega) _ hqlt j hj ?_
        rw [hL]
        exact (div_double hgrp).trans hpart.1.symm
      rw [hL] at hIHq
      simp only [if_neg (Nat.not_lt.2 hside)]
      have hstart : l - l % (2 * 2 ^ (floorLog2 n - 1 - i)) + 2 ^ (floorLog2 n - 1 - i)
          = l - l % 2 ^ (floorLog2 n - 1 - i) := by
        have hml := Nat.mod_le l (2 * 2 ^ (floorLog2 n - 1 - i))
        omega
      rw [hstart]
      have hcond : l - l % 2 ^ (floorLog2 n - 1 - i) ≤ blockGroup (2 ^ floorLog2 n) j ∧
          blockGroup (2 ^ floorLog2 n) j
            < l - l % 2 ^ (floorLog2 n - 1 - i) + 2 ^ (floorLog2 n - 1 - i) :=
        (chunk_mem_iff hh).2 hgrp
      rw [if_pos hcond]
      have hcq : (l - 2 ^ (floorLog2 n - 1 - i)) % (2 * 2 ^ (floorLog2 n - 1 - i))
          = l % 2 ^ (floorLog2 n - 1 - i) := by
        rw [hpart.2, hch]
        omega
      rw [hcq] at hIHq
      rw [hch] at hIHl
      have h2s : 2 ^ (i + 1) = 2 * 2 ^ i := by rw [Nat.pow_succ]; ring
      have hperm : ((List.range (2 ^ (i + 1))).map
            (fun t => l % 2 ^ (floorLog2 n - 1 - i) + 2 ^ (floorLog2 n - 1 - i) * t)).Perm
          (((List.range (2 ^ i)).map
              (fun t => l % 2 ^ (floorLog2 n - 1 - i)
                + 2 * 2 ^ (floorLog2 n - 1 - i) * t)) ++
            ((List.range (2 ^ i)).map
              (fun t => l % 2 ^ (floorLog2 n - 1 - i) + 2 ^ (floorLog2 n - 1 - i)
                + 2 * 2 ^ (floorLog2 n - 1 - i) * t))) := by
        rw [h2s]
        exact range_interleave _ _ _
      have hstep1 := foldRed_perm (f := f) hfa hfc
        (List.Perm.map (fun m => rhPhase0 f n (2 ^ floorLog2 n) B m j) hperm)
      rw [hstep1, List.map_append]
      rw [foldRed_append hfa _ _ _ _ hIHq hIHl]
      rw [combine_comm hfc]

/-- The original machine ranks whose contributions participant `l` already
holds after phase 0: its own, plus its Other partner's when `l` leads a
two-machine group. -/
def groupMembers (n p l : Nat) : List Nat :=
  if l < n - p then [l, p + l] else [l]

/-- The phase-0 value is the fold of the group members' raw blocks. -/
lemma foldRed_groupMembers (f : Nat → Nat → Nat) (n p : Nat) (B : Nat → Nat → List Nat)
    (l j : Nat) :
    foldRed f ((groupMembers n p l).map (fun m => B m j))
      = some (rhPhase0 f n p B l j) := by
  unfold groupMembers rhPhase0
  by_cases hc : l < n - p
  · rw [if_pos hc, if_pos hc]
    rw [List.map_cons, List.map_cons, List.map_nil, foldRed_cons]
    rfl
  · rw [if_neg hc, if_neg hc]
    rw [List.map_cons, List.map_nil, foldRed_cons]
    rfl

/-- Replacing each element by its member expansion does not change a seeded
fold (needs associativity). -/
lemma foldl_mergeOpt_expand {f : Nat → Nat → Nat}
    (hfa : ∀ a b c, f (f a b) c = f a (f b c))
    (parts : Nat → List (List Nat)) (gval : Nat → List Nat) :
    ∀ (L : List Nat), (∀ m ∈ L, foldRed f (parts m) = some (gval m)) →
      ∀ acc, List.foldl (mergeOpt f) acc (L.map gval)
        = List.foldl (mergeOpt f) acc (L.flatMap parts) := by
  intro L
  induction L with
  | nil => intro _ _; rfl
  | cons a L ih =>
    intro h acc
    rw [List.map_cons, List.flatMap_cons, List.foldl_cons, List.foldl_append]
    have ha := h a (List.mem_cons_self a L)
    have hacc : List.foldl (mergeOpt f) acc (parts a) = mergeOpt f acc (gval a) := by
      cases acc with
      | none => exact ha
      | some a0 => exact foldl_mergeOpt_some_of hfa (parts a) (gval a) ha a0
    rw [hacc]
    exact ih (fun m hm => h m (by simp [hm])) _

/-- Fold of the per-group values equals the fold of the flattened members. -/
lemma foldRed_expand {f : Nat → Nat → Nat}
    (hfa : ∀ a b c, f (f a b) c = f a (f b c))
    (parts : Nat → List (List Nat)) (gval : Nat → List Nat) (L : List Nat)
    (h : ∀ m ∈ L, foldRed f (parts m) = some (gval m)) :
    foldRed f (L.map gval) = foldRed f (L.flatMap parts) :=
  foldl_mergeOpt_expand hfa parts gval L h none

/-- A flat map of concatenations is a permutation of the concatenation of the
flat maps. -/
lemma flatMap_append_perm {α β : Type} (L : List α) (g e : α → List β) :
    (L.flatMap (fun x => g x ++ e x)).Perm (L.flatMap g ++ L.flatMap e) := by
  induction L with
  | nil => simp
  | cons a L ih =>
    rw [List.flatMap_cons, List.flatMap_cons, List.flatMap_cons]
    have h1 : ((g a ++ e a) ++ L.flatMap (fun x => g x ++ e x)).Perm
        ((g a ++ e a) ++ (L.flatMap g ++ L.flatMap e)) := List.Perm.append_left _ ih
    refine h1.trans ?_
    have h2 : (e a ++ (L.flatMap g ++ L.flatMap e)).Perm
        (L.flatMap g ++ (e a ++ L.flatMap e)) := by
      rw [← List.append_assoc, ← List.append_assoc]
      exact List.Perm.append_right _ List.perm_append_comm
    have h3 : (g a ++ (e a ++ (L.flatMap g ++ L.flatMap e))).Perm
        (g a ++ (L.flatMap g ++ (e a ++ L.flatMap e))) := List.Perm.append_left _ h2
    rw [List.append_assoc, List.append_assoc]
    exact h3

/-- Flat map of singletons is a map. -/
lemma flatMap_singleton_map {α β : Type} (g : α → β) :
    ∀ L : List α, L.flatMap (fun x => [g x]) = L.map g := by
  intro L
  induction L with
  | nil => rfl
  | cons a L ih => rw [List.flatMap_cons, List.map_cons, ih]; rfl

/-- Flat map of a pointwise empty function is empty. -/
lemma flatMap_eq_nil {α β : Type} (e : α → List β) :
    ∀ L : List α, (∀ x ∈ L, e x = []) → L.flatMap e = [] := by
  intro L
  induction L with
  | nil => intro _; rfl
  | cons a L ih =>
    intro h
    rw [List.flatMap_cons, h a (List.mem_cons_self a L), List.nil_append]
    exact ih (fun x hx => h x (by simp [hx]))

/-- Pointwise equal functions give equal flat maps. -/
lemma flatMap_congr_mem {α β : Type} (g e : α → List β) :
    ∀ L : List α, (∀ x ∈ L, g x = e x) → L.flatMap g = L.flatMap e := by
  intro L
  induction L with
  | nil => intro _; rfl
  | cons a L ih =>
    intro h
    rw [List.flatMap_cons, List.flatMap_cons, h a (List.mem_cons_self a L),
      ih (fun x hx => h x (by simp [hx]))]

/-- The group members of the `p` participants enumerate all `n` machines, up
to order. -/
lemma groupMembers_perm {n p : Nat} (hpn : p ≤ n) (hn2p : n < 2 * p) :
    ((List.range p).flatMap (groupMembers n p)).Perm (List.range n) := by
  have hsplit : groupMembers n p
      = fun l => [l] ++ (if l < n - p then [p + l] else []) := by
    funext l
    unfold groupMembers
    by_cases hc : l < n - p
    · rw [if_pos hc, if_pos hc]
      rfl
    · rw [if_neg hc, if_neg hc]
      rfl
  rw [hsplit]
  refine (flatMap_append_perm (List.range p) (fun l => [l])
    (fun l => if l < n - p then [p + l] else [])).trans ?_
  have h2 : (List.range p).flatMap (fun l => [l]) = List.range p := by
    have hx := flatMap_singleton_map (fun l : Nat => l) (List.range p)
    rw [hx, List.map_id']
  have hps : List.range p
      = List.range (n - p) ++ (List.range (p - (n - p))).map (fun x => (n - p) + x) := by
    conv_lhs => rw [show p = (n - p) + (p - (n - p)) by omega]
    rw [List.range_add]
  have h3 : (List.range p).flatMap (fun l => if l < n - p then [p + l] else [])
      = (List.range (n - p)).map (fun x => p + x) := by
    rw [hps, List.flatMap_append]
    have h3a : (List.range (n - p)).flatMap (fun l => if l < n - p then [p + l] else [])
        = (List.range (n - p)).map (fun x => p + x) := by
      have hcong := flatMap_congr_mem (fun l => if l < n - p then [p + l] else [])
        (fun l => [p + l]) (List.range (n - p))
        (fun x hx => if_pos (List.mem_range.1 hx))
      rw [hcong, flatMap_singleton_map (fun x => p + x) (List.range (n - p))]
    have h3b : ((List.range (p - (n - p))).map (fun x => (n - p) + x)).flatMap
        (fun l => if l < n - p then [p + l] else []) = [] := by
      apply flatMap_eq_nil
      intro x hx
      rcases List.mem_map.1 hx with ⟨y, _, rfl⟩
      exact if_neg (by omega)
    rw [h3a, h3b, List.append_nil]
  rw [h2, h3]
  have hn : List.range n = List.range p ++ (List.range (n - p)).map (fun x => p + x) := by
    conv_lhs => rw [show n = p + (n - p) by omega]
    rw [List.range_add]
  rw [← hn]

/-- Reduce-scatter delivers to machine `r` the reduction of block `r` across
all machines, for associative and commutative reducers. -/
theorem ReduceScatterBlocks_spec (f : Nat → Nat → Nat)
    (hfa : ∀ a b c, f (f a b) c = f a (f b c)) (hfc : ∀ a b, f a b = f b a)
    {n : Nat} (hn : 1 ≤ n) (B : Nat → Nat → List Nat) {r : Nat} (hr : r < n) :
    ReduceScatterBlocks f n B r = reduceAll f ((List.range n).map (fun m => B m r)) := by
  have hp := pow_floorLog2_le hn
  have h2p := lt_two_pow_floorLog2 hn
  have key : ∀ l, l < 2 ^ floorLog2 n → blockGroup (2 ^ floorLog2 n) r = l →
      rhRun f n (2 ^ floorLog2 n) (floorLog2 n) B l r
        = reduceAll f ((List.range n).map (fun m => B m r)) := by
    intro l hl hgl
    have hgrp : blockGroup (2 ^ floorLog2 n) r / 2 ^ (floorLog2 n - floorLog2 n)
        = l / 2 ^ (floorLog2 n - floorLog2 n) := by rw [hgl]
    have hinv := rhRun_inv f hfa hfc n B (floorLog2 n) (le_refl _) l hl r hr hgrp
    have hlist : (List.range (2 ^ floorLog2 n)).map
        (fun t => l % 2 ^ (floorLog2 n - floorLog2 n)
          + 2 ^ (floorLog2 n - floorLog2 n) * t) = List.range (2 ^ floorLog2 n) := by
      have h0 : floorLog2 n - floorLog2 n = 0 := Nat.sub_self _
      rw [h0]
      have hcong : ∀ t ∈ List.range (2 ^ floorLog2 n),
          l % 2 ^ 0 + 2 ^ 0 * t = (fun a => a) t := by
        intro t _
        simp [Nat.mod_one]
      rw [List.map_congr_left hcong, List.map_id']
    rw [hlist] at hinv
    have hexp := foldRed_expand hfa
      (fun m => (groupMembers n (2 ^ floorLog2 n) m).map (fun m2 => B m2 r))
      (fun m => rhPhase0 f n (2 ^ floorLog2 n) B m r)
      (List.range (2 ^ floorLog2 n))
      (fun m _ => foldRed_groupMembers f n (2 ^ floorLog2 n) B m r)
    rw [hexp] at hinv
    have hflat : (List.range (2 ^ floorLog2 n)).flatMap
        (fun m => (groupMembers n (2 ^ floorLog2 n) m).map (fun m2 => B m2 r))
        = ((List.range (2 ^ floorLog2 n)).flatMap
            (groupMembers n (2 ^ floorLog2 n))).map (fun m2 => B m2 r) := by
      rw [List.map_flatMap]
    rw [hflat] at hinv
    have hperm := List.Perm.map (fun m2 => B m2 r)
      (groupMembers_perm (n := n) (p := 2 ^ floorLog2 n) hp h2p)
    rw [foldRed_perm hfa hfc hperm] at hinv
    cases hn1 : (List.range n).map (fun m => B m r) with
    | nil =>
      have hlen := congrArg List.length hn1
      simp at hlen
      omega
    | cons b bs =>
      rw [hn1, foldRed_eq_reduceAll] at hinv
      injection hinv with hv
      exact hv.symm
  unfold ReduceScatterBlocks
  by_cases hrp : r < 2 ^ floorLog2 n
  · rw [if_pos hrp]
    refine key r hrp ?_
    unfold blockGroup
    rw [if_pos hrp]
  · rw [if_neg hrp]
    refine key (r - 2 ^ floorLog2 n) (by omega) ?_
    unfold blockGroup
    rw [if_neg hrp]

/-- Combining preserves a common length. -/
lemma combine_length (f : Nat → Nat → Nat) (a x : List Nat) :
    (combine f a x).length = min a.length x.length :=
  List.length_zipWith f a x

/-- A left fold of combines keeps a common buffer length. -/
lemma foldl_combine_length (f : Nat → Nat → Nat) (s : Nat) :
    ∀ (bs : List (List Nat)) (b : List Nat), b.length = s →
      (∀ x ∈ bs, x.length = s) → (List.foldl (combine f) b bs).length = s := by
  intro bs
  induction bs with
  | nil => intro b hb _; exact hb
  | cons x bs ih =>
    intro b hb h
    rw [List.foldl_cons]
    refine ih _ ?_ (fun y hy => h y (by simp [hy]))
    rw [combine_length, hb, h x (by simp)]
    omega

/-- The ordered reduction of equal-length buffers has that length. -/
lemma reduceAll_length (f : Nat → Nat → Nat) (s : Nat) :
    ∀ bs : List (List Nat), bs ≠ [] → (∀ b ∈ bs, b.length = s) →
      (reduceAll f bs).length = s := by
  intro bs
  cases bs with
  | nil => intro h _; exact absurd rfl h
  | cons b bs =>
    intro _ hlen
    show (List.foldl (combine f) b bs).length = s
    exact foldl_combine_length f s bs b (hlen b (by simp))
      (fun x hx => hlen x (by simp [hx]))

/-- Byte-level reduce-scatter: machine `r` receives exactly the reduction of
its block across all machines. -/
lemma ReduceScatter_spec (f : Nat → Nat → Nat)
    (hfa : ∀ a b c, f (f a b) c = f a (f b c)) (hfc : ∀ a b, f a b = f b a)
    {n : Nat} (hn : 1 ≤ n) (input : Nat → List Nat) (block_start block_len : Nat → Nat)
    {r : Nat} (hr : r < n) :
    Network.ReduceScatter f n input block_start block_len r
      = reduceAll f ((List.range n).map
          (fun m => ((input m).drop (block_start r)).take (block_len r))) := by
  unfold Network.ReduceScatter
  exact ReduceScatterBlocks_spec f hfa hfc hn _ hr

/-- Modelled from the spec: byte length of machine `m`'s block in the
Allreduce partition — `input_size` bytes cut into `n` per-machine blocks
aligned to `type_size`-byte records: the first `n - 1` machines take
`input_size / type_size / n` whole records each, the last takes the rest. -/
def allreduceBlockLen (n s type_size m : Nat) : Nat :=
  if m + 1 < n then s / type_size / n * type_size
  else s - m * (s / type_size / n * type_size)

/-- Modelled from the spec: byte offset of machine `m`'s block in the
Allreduce partition. -/
def allreduceBlockStart (n s type_size m : Nat) : Nat :=
  m * (s / type_size / n * type_size)

/-- Modelled from the spec: the large-input Allreduce strategy — ReduceScatter
over the record-aligned partition, then a non-uniform Allgather of the
reduced blocks. -/
def Network.AllreduceBig (f : Nat → Nat → Nat) (n s type_size : Nat)
    (input : Nat → List Nat) (r : Nat) : List Nat :=
  Network.AllgatherV n (allreduceBlockLen n s type_size)
    (fun m => Network.ReduceScatter f n input (allreduceBlockStart n s type_size)
      (allreduceBlockLen n s type_size) m) r

/-- Modelled from the spec: `Network::Allreduce(input, input_size, type_size,
output, reducer)` (network.h:109, body not among the sources): inputs below
the configurable size threshold go through `AllreduceByAllGather`, larger
inputs through ReduceScatter followed by Allgather. -/
def Network.Allreduce (f : Nat → Nat → Nat) (threshold n s type_size : Nat)
    (input : Nat → List Nat) (r : Nat) : List Nat :=
  if s < threshold then Network.AllreduceByAllGather f n s input r
  else Network.AllreduceBig f n s type_size input r

/-- The whole partition fits in the buffer. -/
lemma allreduce_layout_le (n s ts : Nat) :
    n * (s / ts / n * ts) ≤ s := by
  have h1 : s / ts / n * n ≤ s / ts := Nat.div_mul_le_self (s / ts) n
  have h2 : (s / ts / n * n) * ts ≤ (s / ts) * ts :=
    Nat.mul_le_mul_right ts h1
  have h3 : (s / ts) * ts ≤ s := Nat.div_mul_le_self s ts
  calc n * (s / ts / n * ts) = (s / ts / n * n) * ts := by ring
    _ ≤ (s / ts) * ts := h2
    _ ≤ s := h3

/-- Every block of the Allreduce partition lies inside the buffer. -/
lemma allreduce_layout_bound {n s ts m : Nat} (hm : m < n) :
    allreduceBlockStart n s ts m + allreduceBlockLen n s ts m ≤ s := by
  have hkey := allreduce_layout_le n s ts
  unfold allreduceBlockStart allreduceBlockLen
  by_cases hc : m + 1 < n
  · rw [if_pos hc]
    have h1 : (m + 1) * (s / ts / n * ts) ≤ n * (s / ts / n * ts) :=
      Nat.mul_le_mul_right _ (by omega)
    have h2 : (m + 1) * (s / ts / n * ts)
        = m * (s / ts / n * ts) + s / ts / n * ts := by ring
    omega
  · rw [if_neg hc]
    have h1 : m * (s / ts / n * ts) ≤ n * (s / ts / n * ts) :=
      Nat.mul_le_mul_right _ (by omega)
    omega

/-- Uniform leading blocks of the partition reconstruct a prefix. -/
lemma slice_uniform (e : Nat) :
    ∀ (a : Nat) (X : List Nat),
      ((List.range a).map (fun m => (X.drop (m * e)).take e)).flatten = X.take (a * e) := by
  intro a
  induction a with
  | zero => simp
  | succ a ih =>
    intro X
    rw [List.range_succ, List.map_append, List.flatten_append, ih]
    have hone : ((List.map (fun m => (X.drop (m * e)).take e) [a])).flatten
        = (X.drop (a * e)).take e := by
      simp
    rw [hone, ← List.take_add]
    have hmul : a * e + e = (a + 1) * e := by ring
    rw [hmul]

/-- The record-aligned partition reconstructs the whole buffer. -/
lemma slice_reconstruct {n s : Nat} (ts : Nat) (hn : 1 ≤ n) (X : List Nat)
    (hX : X.length = s) :
    ((List.range n).map (fun m =>
      (X.drop (allreduceBlockStart n s ts m)).take (allreduceBlockLen n s ts m))).flatten
      = X := by
  obtain ⟨a, rfl⟩ : ∃ a, n = a + 1 := ⟨n - 1, by omega⟩
  rw [List.range_succ, List.map_append, List.flatten_append]
  have hfirst : (List.range a).map (fun m =>
      (X.drop (allreduceBlockStart (a + 1) s ts m)).take (allreduceBlockLen (a + 1) s ts m))
      = (List.range a).map (fun m => (X.drop (m * (s / ts / (a + 1) * ts))).take
          (s / ts / (a + 1) * ts)) := by
    apply List.map_congr_left
    intro m hm
    have hm' : m < a := List.mem_range.1 hm
    unfold allreduceBlockStart allreduceBlockLen
    rw [if_pos (by omega)]
  rw [hfirst, slice_uniform]
  have hlast : (List.map (fun m =>
      (X.drop (allreduceBlockStart (a + 1) s ts m)).take (allreduceBlockLen (a + 1) s ts m))
        [a]).flatten
      = X.drop (a * (s / ts / (a + 1) * ts)) := by
    simp only [List.map_cons, List.map_nil, List.flatten_cons, List.flatten_nil,
      List.append_nil]
    unfold allreduceBlockStart allreduceBlockLen
    rw [if_neg (by omega)]
    apply List.take_of_length_le
    rw [List.length_drop, hX]
  rw [hlast, List.take_append_drop]

/-- Slicing commutes with a fold of combines. -/
lemma foldl_combine_slice (f : Nat → Nat → Nat) (st ln : Nat) :
    ∀ (bs : List (List Nat)) (b : List Nat),
      List.foldl (combine f) ((b.drop st).take ln)
          (bs.map (fun x => (x.drop st).take ln))
        = ((List.foldl (combine f) b bs).drop st).take ln := by
  intro bs
  induction bs with
  | nil => intro b; rfl
  | cons x bs ih =>
    intro b
    rw [List.map_cons, List.foldl_cons, List.foldl_cons]
    have hc : combine f ((b.drop st).take ln) ((x.drop st).take ln)
        = (((combine f b x).drop st).take ln) := by
      show List.zipWith f ((b.drop st).take ln) ((x.drop st).take ln)
          = ((List.zipWith f b x).drop st).take ln
      rw [List.drop_zipWith, List.take_zipWith]
    rw [hc]
    exact ih (combine f b x)

/-- Slicing commutes with the ordered reduction. -/
lemma reduceAll_slice (f : Nat → Nat → Nat) (st ln : Nat) :
    ∀ bs : List (List Nat),
      reduceAll f (bs.map (fun b => (b.drop st).take ln))
        = ((reduceAll f bs).drop st).take ln := by
  intro bs
  cases bs with
  | nil => simp [reduceAll]
  | cons b bs =>
    show List.foldl (combine f) ((b.drop st).take ln)
        (bs.map (fun x => (x.drop st).take ln))
      = ((List.foldl (combine f) b bs).drop st).take ln
    exact foldl_combine_slice f st ln bs b

/-- The large-input Allreduce strategy also computes the ascending-rank
reduction of all machines' inputs, for associative and commutative
reducers. -/
lemma AllreduceBig_spec (f : Nat → Nat → Nat)
    (hfa : ∀ a b c, f (f a b) c = f a (f b c)) (hfc : ∀ a b, f a b = f b a)
    {n s : Nat} (ts : Nat) (hn : 1 ≤ n) (input : Nat → List Nat)
    (hlen : ∀ m, m < n → (input m).length = s) {r : Nat} (hr : r < n) :
    Network.AllreduceBig f n s ts input r = reduceAll f ((List.range n).map input) := by
  have hRlen : (reduceAll f ((List.range n).map input)).length = s := by
    apply reduceAll_length f s
    · intro hcon
      have hl := congrArg List.length hcon
      simp at hl
      omega
    · intro b hb
      rcases List.mem_map.1 hb with ⟨m, hm, rfl⟩
      exact hlen m (List.mem_range.1 hm)
  have hRS : ∀ m, m < n →
      Network.ReduceScatter f n input (allreduceBlockStart n s ts)
        (allreduceBlockLen n s ts) m
      = ((reduceAll f ((List.range n).map input)).drop
          (allreduceBlockStart n s ts m)).take (allreduceBlockLen n s ts m) := by
    intro m hm
    rw [ReduceScatter_spec f hfa hfc hn input _ _ hm]
    have hs := reduceAll_slice f (allreduceBlockStart n s ts m)
      (allreduceBlockLen n s ts m) ((List.range n).map input)
    rw [List.map_map] at hs
    exact hs
  unfold Network.AllreduceBig Network.AllgatherV
  rw [AllgatherBlocks_spec hn _ hr]
  have hcong : (List.range n).map (fun m =>
      (Network.ReduceScatter f n input (allreduceBlockStart n s ts)
        (allreduceBlockLen n s ts) m).take (allreduceBlockLen n s ts m))
    = (List.range n).map (fun m =>
        ((reduceAll f ((List.range n).map input)).drop
          (allreduceBlockStart n s ts m)).take (allreduceBlockLen n s ts m)) := by
    apply List.map_congr_left
    intro m hm
    have hm2 : m < n := List.mem_range.1 hm
    rw [hRS m hm2, List.take_take]
    simp
  rw [hcong]
  exact slice_reconstruct ts hn _ hRlen

/-- Lifecycle phase of the static Network class (spec section 4.3's state
machine). -/
inductive NetworkPhase where
  | Uninitialized
  | Initialized
  | Disposed
deriving Repr, DecidableEq

/-- The static state of class Network that the accessors touch
(network.h:156-174): the cached `rank_` and `num_machines_` fields, together
with the lifecycle phase the spec tracks.  The phase is never consulted by
the accessors below. -/
structure NetworkState where
  phase : NetworkPhase
  rank_ : Int
  num_machines_ : Int
deriving Repr, DecidableEq

/-- `Network::rank` (network.h:177-179): returns the cached static field,
with no initialization check and no abort. -/
def Network.rank (st : NetworkState) : Int := st.rank_

/-- `Network::num_machines` (network.h:181-183): returns the cached static
field, with no initialization check and no abort. -/
def Network.num_machines (st : NetworkState) : Int := st.num_machines_

/-- The retained range of round `i` always starts at the participant's
`2^(k-1-i)`-aligned chunk. -/
lemma Construct_recv_start_eq {n r i : Nat} (hr : r < 2 ^ floorLog2 n)
    (hi : i < floorLog2 n) :
    (RecursiveHalvingMap.Construct r n).recv_block_start.getD i 0
      = r - r % 2 ^ (floorLog2 n - 1 - i) := by
  rw [Construct_recv_start_getD hr hi]
  have hh : 0 < 2 ^ (floorLog2 n - 1 - i) := Nat.pos_pow_of_pos _ (by norm_num)
  have hL : 2 ^ (floorLog2 n - i) = 2 * 2 ^ (floorLog2 n - 1 - i) := pow_sub_succ hi
  rw [hL]
  by_cases hc : r % (2 * 2 ^ (floorLog2 n - 1 - i)) < 2 ^ (floorLog2 n - 1 - i)
  · rw [if_pos hc, mod_small_of_lt hc]
  · push_neg at hc
    rw [if_neg (Nat.not_lt.2 hc)]
    have hm := mod_large_of_ge hh hc
    have hle := Nat.mod_le r (2 * 2 ^ (floorLog2 n - 1 - i))
    omega

/-- Node type of an extra machine. -/
lemma Construct_type_other {n r : Nat} (h : 2 ^ floorLog2 n ≤ r) :
    (RecursiveHalvingMap.Construct r n).type = RecursiveHalvingNodeType.Other ∧
    (RecursiveHalvingMap.Construct r n).neighbor = (r : Int) - (2 ^ floorLog2 n : Nat) := by
  unfold RecursiveHalvingMap.Construct
  rw [if_pos h]
  exact ⟨rfl, rfl⟩

/-- Node type of a low-indexed group leader. -/
lemma Construct_type_leader {n r : Nat} (h1 : r < 2 ^ floorLog2 n)
    (h2 : r < n - 2 ^ floorLog2 n) :
    (RecursiveHalvingMap.Construct r n).type = RecursiveHalvingNodeType.GroupLeader ∧
    (RecursiveHalvingMap.Construct r n).neighbor = ((r + 2 ^ floorLog2 n : Nat) : Int) := by
  unfold RecursiveHalvingMap.Construct
  rw [if_neg (by omega)]
  exact ⟨if_pos h2, if_pos h2⟩

/-- Node type of a normal participant. -/
lemma Construct_type_normal {n r : Nat} (h1 : r < 2 ^ floorLog2 n)
    (h2 : ¬r < n - 2 ^ floorLog2 n) :
    (RecursiveHalvingMap.Construct r n).type = RecursiveHalvingNodeType.Normal ∧
    (RecursiveHalvingMap.Construct r n).neighbor = -1 := by
  unfold RecursiveHalvingMap.Construct
  rw [if_neg (by omega)]
  exact ⟨if_neg h2, if_neg h2⟩

/-- Round count and per-round array lengths of a participant. -/
lemma Construct_participant_shape {n r : Nat} (h1 : r < 2 ^ floorLog2 n) :
    (RecursiveHalvingMap.Construct r n).k = floorLog2 n ∧
    (RecursiveHalvingMap.Construct r n).ranks.length = floorLog2 n ∧
    (RecursiveHalvingMap.Construct r n).send_block_start.length = floorLog2 n ∧
    (RecursiveHalvingMap.Construct r n).send_block_len.length = floorLog2 n ∧
    (RecursiveHalvingMap.Construct r n).recv_block_start.length = floorLog2 n ∧
    (RecursiveHalvingMap.Construct r n).recv_block_len.length = floorLog2 n := by
  unfold RecursiveHalvingMap.Construct
  rw [if_neg (by omega)]
  refine ⟨rfl, ?_, ?_, ?_, ?_, ?_⟩ <;> simp

/-- The size of a monotone prefix-sum is monotone in the number of blocks. -/
lemma sum_range_map_mono (g : Nat → Nat) {a b : Nat} (hab : a ≤ b) :
    ((List.range a).map g).sum ≤ ((List.range b).map g).sum := by
  have hb : List.range b = List.range a ++ (List.range (b - a)).map (fun x => a + x) := by
    conv_lhs => rw [show b = a + (b - a) by omega]
    rw [List.range_add]
  rw [hb, List.map_append, List.sum_append]
  omega

/-- Modelled from the spec: the byte-wise sum mod 256 reducer of Scenario D. -/
def byteSum (a b : Nat) : Nat := (a + b) % 256

/-- C10: `Network::rank()` and `Network::num_machines()` are total and
unconditional: in every process state, including before Init and after
Dispose, they simply return the cached static fields `rank_` and
`num_machines_` without checking initialization and without aborting — the
result does not depend on the lifecycle phase at all. -/
theorem C10_accessors_total :
    ∀ st : NetworkState,
      Network.rank st = st.rank_ ∧
      Network.num_machines st = st.num_machines_ ∧
      ∀ (ph : NetworkPhase) (r nm : Int),
        Network.rank ⟨ph, r, nm⟩ = r ∧ Network.num_machines ⟨ph, r, nm⟩ = nm :=
  fun _ => ⟨rfl, rfl, fun _ _ _ => ⟨rfl, rfl⟩⟩

/-- C6: `BruckMap::Construct(rank, n)` is a pure function of `(rank, n)` such
that for every `n ≥ 1` and `rank < n`: `k = ceil(log2 n)` (that is,
`Nat.clog 2 n`), with `k = 0` and empty `in_ranks`/`out_ranks` when `n = 1`,
and for every round `i < k`, `out_ranks[i] = (rank + 2^i) mod n` and
`in_ranks[i] = (rank - 2^i + n) mod n` (the receive formula stated over ℤ
since `rank - 2^i` may be negative). -/
theorem C6_bruck_map_construct (n rank : Nat) (hn : 1 ≤ n) (hr : rank < n) :
    (BruckMap.Construct rank n).k = Nat.clog 2 n ∧
    (BruckMap.Construct rank n).in_ranks.length = Nat.clog 2 n ∧
    (BruckMap.Construct rank n).out_ranks.length = Nat.clog 2 n ∧
    (n = 1 → (BruckMap.Construct rank n).k = 0 ∧
      (BruckMap.Construct rank n).in_ranks = [] ∧
      (BruckMap.Construct rank n).out_ranks = []) ∧
    (∀ i, i < Nat.clog 2 n →
      (BruckMap.Construct rank n).out_ranks.getD i 0 = (rank + 2 ^ i) % n ∧
      ((BruckMap.Construct rank n).in_ranks.getD i 0 : Int)
        = ((rank : Int) - 2 ^ i + n) % n) := by
  have hk : bruckRounds n = Nat.clog 2 n := bruckRounds_eq_clog n
  refine ⟨hk, ?_, ?_, ?_, ?_⟩
  · show ((List.range (bruckRounds n)).map _).length = _
    simp [hk]
  · show ((List.range (bruckRounds n)).map _).length = _
    simp [hk]
  · intro h1
    subst h1
    exact ⟨rfl, rfl, rfl⟩
  · intro i hi
    have hi2 : i < bruckRounds n := by rw [hk]; exact hi
    have h2i : 2 ^ i < n := pow_lt_of_lt_bruckRounds hi2
    constructor
    · show ((List.range (bruckRounds n)).map _).getD i 0 = _
      rw [getD_map_range _ _ hi2]
    · rw [Construct_in_ranks, getD_map_range _ _ hi2, Nat.mod_eq_of_lt h2i,
        Int.natCast_mod, Nat.cast_sub (by omega : 2 ^ i ≤ rank + n)]
      push_cast
      congr 1
      ring

/-- C6 witness: a concrete instance of the Bruck-map invariants at
`n = 5`, `rank = 2`. -/
theorem C6_bruck_map_construct_witness :
    (BruckMap.Construct 2 5).k = Nat.clog 2 5 ∧
    (BruckMap.Construct 2 5).out_ranks.getD 0 0 = (2 + 2 ^ 0) % 5 := by
  have h := C6_bruck_map_construct 5 2 (by norm_num) (by norm_num)
  exact ⟨h.1, (h.2.2.2.2 0 (Nat.clog_pos (by norm_num) (by norm_num))).1⟩

/-- C3: uniform `Network::Allgather(input, send_size, output)`: when every
machine contributes exactly `s` bytes, every machine's output is the
ascending-rank concatenation of all machines' contributions and has length
`s * n`. -/
theorem C3_allgather_uniform (n s : Nat) (input : Nat → List Nat) (r : Nat)
    (hn : 1 ≤ n) (hs : 0 < s) (hlen : ∀ m, m < n → (input m).length = s)
    (hr : r < n) :
    Network.Allgather n input r = ((List.range n).map input).flatten ∧
    (Network.Allgather n input r).length = s * n := by
  have h1 := Allgather_spec hn input hr
  have h2 : (((List.range n).map input).flatten).length = n * s := by
    rw [flatten_length_const s]
    · simp
    · intro b hb
      rcases List.mem_map.1 hb with ⟨m, hm, rfl⟩
      exact hlen m (List.mem_range.1 hm)
  refine ⟨h1, ?_⟩
  rw [h1, h2, Nat.mul_comm]

/-- C3 witness, Scenario A: `n = 4`, machine `r` contributes four bytes of
value `r`; the output on machine 2 is the 16-byte ascending sequence. -/
theorem C3_allgather_uniform_witness :
    Network.Allgather 4 (fun m => [m, m, m, m]) 2
      = [0, 0, 0, 0, 1, 1, 1, 1, 2, 2, 2, 2, 3, 3, 3, 3] := by
  have h := (C3_allgather_uniform 4 4 (fun m => [m, m, m, m]) 2 (by norm_num)
    (by norm_num) (by decide) (by norm_num)).1
  rw [h]
  rfl

/-- C5: `Network::AllreduceByAllGather` gathers all `n` contributions in
ascending rank order and folds them with the reducer in strict
ascending-rank order, so that (whenever the reducer is associative, even if
not commutative) every machine obtains the identical ascending-rank
reduction. -/
theorem C5_allreduce_by_allgather (f : Nat → Nat → Nat) (n s : Nat)
    (input : Nat → List Nat) (r r2 : Nat)
    (hfa : ∀ a b c, f (f a b) c = f a (f b c)) (hn : 1 ≤ n)
    (hlen : ∀ m, m < n → (input m).length = s) (hr : r < n) (hr2 : r2 < n) :
    Network.AllreduceByAllGather f n s input r
        = reduceAll f ((List.range n).map input) ∧
    Network.AllreduceByAllGather f n s input r
        = Network.AllreduceByAllGather f n s input r2 := by
  have h1 := AllreduceByAllGather_spec hn f input hlen hr
  have h2 := AllreduceByAllGather_spec hn f input hlen hr2
  exact ⟨h1, by rw [h1, h2]⟩

/-- C5 witness, Scenario B: `n = 4`, byte-wise sum, machine `r` contributes
the single byte `r`; machine 1 obtains the byte 6. -/
theorem C5_allreduce_by_allgather_witness :
    Network.AllreduceByAllGather (fun a b => a + b) 4 1 (fun m => [m]) 1 = [6] := by
  have h := (C5_allreduce_by_allgather (fun a b => a + b) 4 1 (fun m => [m]) 1 3
    (fun a b c => Nat.add_assoc a b c) (by norm_num) (by decide) (by norm_num)
    (by norm_num)).1
  rw [h]
  rfl

/-- C2: `Network::Allreduce` dispatches on `input_size` against the internal
size threshold — below it the call delegates to `AllreduceByAllGather`,
otherwise it runs ReduceScatter followed by Allgather — and with reducer =
byte-wise sum mod 256 the two internal strategies are extensionally equal. -/
theorem C2_allreduce_dispatch_equiv (f : Nat → Nat → Nat)
    (threshold type_size n s : Nat) (input : Nat → List Nat) (r : Nat)
    (hn : 1 ≤ n) (hlen : ∀ m, m < n → (input m).length = s) (hr : r < n) :
    (s < threshold → Network.Allreduce f threshold n s type_size input r
        = Network.AllreduceByAllGather f n s input r) ∧
    (threshold ≤ s → Network.Allreduce f threshold n s type_size input r
        = Network.AllreduceBig f n s type_size input r) ∧
    Network.AllreduceByAllGather byteSum n s input r
        = Network.AllreduceBig byteSum n s type_size input r := by
  refine ⟨?_, ?_, ?_⟩
  · intro h
    unfold Network.Allreduce
    rw [if_pos h]
  · intro h
    unfold Network.Allreduce
    rw [if_neg (by omega)]
  · rw [AllreduceByAllGather_spec hn byteSum input hlen hr,
      AllreduceBig_spec byteSum (fun a b c => by unfold byteSum; omega)
        (fun a b => by unfold byteSum; omega) type_size hn input hlen hr]

/-- C2 witness, Scenario D instance: `n = 3`, two-byte inputs, reducer =
byte-wise sum mod 256; the gather-then-fold strategy and the
scatter-then-gather strategy produce bit-identical output on machine 1. -/
theorem C2_allreduce_dispatch_equiv_witness :
    Network.AllreduceByAllGather byteSum 3 2 (fun m => [100 + m, 200 + m]) 1
      = Network.AllreduceBig byteSum 3 2 1 (fun m => [100 + m, 200 + m]) 1 :=
  (C2_allreduce_dispatch_equiv byteSum 0 1 3 2 (fun m => [100 + m, 200 + m]) 1
    (by norm_num) (by decide) (by norm_num)).2.2

/-- C1 counterexample: with the associative but non-commutative reducer that
keeps the destination byte (`fun a b => a`), two machines, threshold 0 (so
the ReduceScatter-Allgather strategy runs) and inputs `[10, 20]` and
`[30, 40]`, machine 0 ends with `[10, 40]`, not the ascending element-wise
reduction `[10, 20]` — so the claim does not hold for every reducer. -/
theorem C1_counterexample :
    Network.Allreduce (fun a b => a) 0 2 2 1
        (fun m => if m = 0 then [10, 20] else [30, 40]) 0
      ≠ reduceAll (fun a b => a)
        ((List.range 2).map (fun m => if m = 0 then [10, 20] else [30, 40])) := by
  decide

/-- C1 (amended): for every machine count `n ≥ 1`, every rank, every input
and every associative and commutative reducer: after `Network::Allreduce`
completes on all machines, every machine's output is the identical
`input_size`-byte buffer equal to the element-wise reduction (via the
reducer, in ascending rank order) of all `n` machines' inputs. -/
theorem C1_allreduce_correct (f : Nat → Nat → Nat)
    (threshold type_size n s : Nat) (input : Nat → List Nat) (r r2 : Nat)
    (hfa : ∀ a b c, f (f a b) c = f a (f b c)) (hfc : ∀ a b, f a b = f b a)
    (hn : 1 ≤ n) (hlen : ∀ m, m < n → (input m).length = s)
    (hr : r < n) (hr2 : r2 < n) :
    Network.Allreduce f threshold n s type_size input r
        = reduceAll f ((List.range n).map input) ∧
    Network.Allreduce f threshold n s type_size input r
        = Network.Allreduce f threshold n s type_size input r2 := by
  have key : ∀ r3, r3 < n → Network.Allreduce f threshold n s type_size input r3
      = reduceAll f ((List.range n).map input) := by
    intro r3 hr3
    unfold Network.Allreduce
    by_cases hc : s < threshold
    · rw [if_pos hc]
      exact AllreduceByAllGather_spec hn f input hlen hr3
    · rw [if_neg hc]
      exact AllreduceBig_spec f hfa hfc type_size hn input hlen hr3
  exact ⟨key r hr, by rw [key r hr, key r2 hr2]⟩

/-- C1 witness: two machines, plain byte-wise sum, inputs `[1, 2]` and
`[3, 4]` through the large-input strategy; machine 1 obtains `[4, 6]`. -/
theorem C1_allreduce_correct_witness :
    Network.Allreduce (fun a b => a + b) 0 2 2 1
        (fun m => if m = 0 then [1, 2] else [3, 4]) 1 = [4, 6] := by
  have h := (C1_allreduce_correct (fun a b => a + b) 0 1 2 2
    (fun m => if m = 0 then [1, 2] else [3, 4]) 1 0
    (fun a b c => Nat.add_assoc a b c) (fun a b => Nat.add_comm a b)
    (by norm_num) (by decide) (by norm_num) (by norm_num)).1
  rw [h]
  rfl

/-- C4: `Network::ReduceScatter` over a pre-agreed block layout partitioning
the input: machine `r`'s output holds exactly `block_len[r]` bytes equal to
the reduction, across all `n` machines, of their respective block `r` (for
the associative and commutative reducers required by the reducer contract of
the spec). -/
theorem C4_reduce_scatter (f : Nat → Nat → Nat) (n s : Nat)
    (input : Nat → List Nat) (block_start block_len : Nat → Nat) (r : Nat)
    (hfa : ∀ a b c, f (f a b) c = f a (f b c)) (hfc : ∀ a b, f a b = f b a)
    (hn : 1 ≤ n) (hlen : ∀ m, m < n → (input m).length = s)
    (hpart : ∀ j, j < n → block_start j = ((List.range j).map block_len).sum)
    (htot : ((List.range n).map block_len).sum = s) (hr : r < n) :
    Network.ReduceScatter f n input block_start block_len r
        = reduceAll f ((List.range n).map
            (fun m => ((input m).drop (block_start r)).take (block_len r))) ∧
    (Network.ReduceScatter f n input block_start block_len r).length
        = block_len r := by
  have h1 := ReduceScatter_spec f hfa hfc hn input block_start block_len hr
  have hbound : block_start r + block_len r ≤ s := by
    have hmono := sum_range_map_mono block_len (show r + 1 ≤ n by omega)
    have hsucc : ((List.range (r + 1)).map block_len).sum
        = ((List.range r).map block_len).sum + block_len r :=
      List.sum_range_succ block_len r
    rw [hpart r hr]
    omega
  refine ⟨h1, ?_⟩
  rw [h1]
  apply reduceAll_length f (block_len r)
  · intro hcon
    have hl := congrArg List.length hcon
    simp at hl
    omega
  · intro b hb
    rcases List.mem_map.1 hb with ⟨m, hm, rfl⟩
    have hm2 : m < n := List.mem_range.1 hm
    rw [List.length_take, List.length_drop, hlen m hm2]
    omega

/-- C4 witness, Scenario E: `n = 5`, five one-byte blocks, reducer = sum,
machine `m` holds five bytes of value `m`; machine 2's output block is the
elementwise sum `[10]` of all five machines' block 2. -/
theorem C4_reduce_scatter_witness :
    Network.ReduceScatter (fun a b => a + b) 5 (fun m => [m, m, m, m, m])
        (fun j => j) (fun _j => 1) 2 = [10] := by
  have h := (C4_reduce_scatter (fun a b => a + b) 5 5 (fun m => [m, m, m, m, m])
    (fun j => j) (fun _j => 1) 2
    (fun a b c => Nat.add_assoc a b c) (fun a b => Nat.add_comm a b)
    (by norm_num) (by decide) (by decide) (by decide) (by norm_num)).1
  rw [h]
  rfl

/-- C9: when `n = 1`, every collective operation — Allreduce,
AllreduceByAllGather, Allgather, ReduceScatter — executes zero communication
rounds (both topology maps have `k = 0`) and is a no-op copy: the output
equals the input for every input and every reducer. -/
theorem C9_degenerate_single_machine (f : Nat → Nat → Nat)
    (threshold type_size s : Nat) (input : Nat → List Nat)
    (block_start block_len : Nat → Nat)
    (hlen : (input 0).length = s) (hbs : block_start 0 = 0)
    (hbl : block_len 0 = s) :
    (BruckMap.Construct 0 1).k = 0 ∧
    (RecursiveHalvingMap.Construct 0 1).k = 0 ∧
    Network.Allgather 1 input 0 = input 0 ∧
    Network.AllreduceByAllGather f 1 s input 0 = input 0 ∧
    Network.ReduceScatter f 1 input block_start block_len 0 = input 0 ∧
    Network.Allreduce f threshold 1 s type_size input 0 = input 0 := by
  have hlen1 : ∀ m, m < 1 → (input m).length = s := by
    intro m hm
    have hm0 : m = 0 := by omega
    rw [hm0]
    exact hlen
  have hg : Network.Allgather 1 input 0 = input 0 := by
    rw [Allgather_spec (by norm_num) input (by norm_num)]
    rw [show List.range 1 = [0] from rfl]
    simp
  have habg : Network.AllreduceByAllGather f 1 s input 0 = input 0 := by
    rw [AllreduceByAllGather_spec (by norm_num) f input hlen1 (by norm_num)]
    rw [show List.range 1 = [0] from rfl]
    rfl
  have hrs : Network.ReduceScatter f 1 input block_start block_len 0 = input 0 := by
    have h0 : Network.ReduceScatter f 1 input block_start block_len 0
        = ((input 0).drop (block_start 0)).take (block_len 0) := rfl
    rw [h0, hbs, hbl, List.drop_zero]
    exact List.take_of_length_le (by omega)
  have hbig : Network.AllreduceBig f 1 s type_size input 0 = input 0 := by
    unfold Network.AllreduceBig Network.AllgatherV
    rw [AllgatherBlocks_spec (by norm_num) _ (by norm_num)]
    rw [show List.range 1 = [0] from rfl]
    simp only [List.map_cons, List.map_nil, List.flatten_cons, List.flatten_nil,
      List.append_nil]
    have hrs2 : Network.ReduceScatter f 1 input (allreduceBlockStart 1 s type_size)
        (allreduceBlockLen 1 s type_size) 0
        = ((input 0).drop (allreduceBlockStart 1 s type_size 0)).take
            (allreduceBlockLen 1 s type_size 0) := rfl
    have hst : allreduceBlockStart 1 s type_size 0 = 0 := Nat.zero_mul _
    have hln : allreduceBlockLen 1 s type_size 0 = s := by
      unfold allreduceBlockLen
      rw [if_neg (by omega)]
      simp
    rw [hrs2, hst, hln, List.drop_zero, List.take_take, Nat.min_self]
    exact List.take_of_length_le (by omega)
  refine ⟨rfl, rfl, hg, habg, hrs, ?_⟩
  unfold Network.Allreduce
  by_cases hc : s < threshold
  · rw [if_pos hc]
    exact habg
  · rw [if_neg hc]
    exact hbig

/-- C9 witness: a single machine with the two-byte input `[7, 8]`; Allreduce
returns it unchanged. -/
theorem C9_degenerate_single_machine_witness :
    Network.Allreduce (fun a b => a + b) 5 1 2 1 (fun _ => [7, 8]) 0 = [7, 8] :=
  (C9_degenerate_single_machine (fun a b => a + b) 5 1 2 (fun _ => [7, 8])
    (fun _ => 0) (fun _ => 2) rfl rfl rfl).2.2.2.2.2

/-- C7: for every non-power-of-two `n` with `p` the largest power of two at
most `n` (`p = 2 ^ Nat.log 2 n`): `RecursiveHalvingMap::Construct` pairs each
of the `n - p` extra machines with one distinct machine among the
lowest-indexed ranks of the `p`-block (extra `p + j` with base `j`, the
lower-ranked member being the GroupLeader, `neighbor` holding the partner
rank), makes every remaining machine Normal, produces exactly `n - p`
GroupLeaders, and gives every GroupLeader and Normal machine exactly
`k = log2 p` rounds (with per-round arrays of that length). -/
theorem C7_recursive_halving_grouping (n : Nat) (hn : 1 ≤ n)
    (hnp : 2 ^ Nat.log 2 n < n) :
    (∀ r, r < n →
      (r < n - 2 ^ Nat.log 2 n →
        (RecursiveHalvingMap.Construct r n).type
            = RecursiveHalvingNodeType.GroupLeader ∧
        (RecursiveHalvingMap.Construct r n).neighbor
            = ((r + 2 ^ Nat.log 2 n : Nat) : Int)) ∧
      (n - 2 ^ Nat.log 2 n ≤ r → r < 2 ^ Nat.log 2 n →
        (RecursiveHalvingMap.Construct r n).type
            = RecursiveHalvingNodeType.Normal) ∧
      (2 ^ Nat.log 2 n ≤ r →
        (RecursiveHalvingMap.Construct r n).type = RecursiveHalvingNodeType.Other ∧
        (RecursiveHalvingMap.Construct r n).neighbor
            = ((r - 2 ^ Nat.log 2 n : Nat) : Int) ∧
        r - 2 ^ Nat.log 2 n < n - 2 ^ Nat.log 2 n)) ∧
    ((List.range n).filter (fun r =>
      (RecursiveHalvingMap.Construct r n).type
        = RecursiveHalvingNodeType.GroupLeader)).length = n - 2 ^ Nat.log 2 n ∧
    (∀ r, r < 2 ^ Nat.log 2 n →
      (RecursiveHalvingMap.Construct r n).k = Nat.log 2 (2 ^ Nat.log 2 n) ∧
      (RecursiveHalvingMap.Construct r n).ranks.length
          = (RecursiveHalvingMap.Construct r n).k ∧
      (RecursiveHalvingMap.Construct r n).send_block_start.length
          = (RecursiveHalvingMap.Construct r n).k ∧
      (RecursiveHalvingMap.Construct r n).recv_block_start.length
          = (RecursiveHalvingMap.Construct r n).k) := by
  have hfl : floorLog2 n = Nat.log 2 n := floorLog2_eq_log hn
  rw [← hfl] at hnp
  rw [← hfl]
  have hple := pow_floorLog2_le hn
  have h2p := lt_two_pow_floorLog2 hn
  refine ⟨?_, ?_, ?_⟩
  · intro r hr
    refine ⟨?_, ?_, ?_⟩
    · intro h1
      have hrp : r < 2 ^ floorLog2 n := by omega
      exact Construct_type_leader hrp h1
    · intro hge hlt
      exact (Construct_type_normal hlt (by omega)).1
    · intro h1
      have h := Construct_type_other h1
      refine ⟨h.1, ?_, by omega⟩
      rw [h.2, Nat.cast_sub h1]
  · have hsplit : List.range n = List.range (n - 2 ^ floorLog2 n)
        ++ (List.range (n - (n - 2 ^ floorLog2 n))).map
            (fun x => (n - 2 ^ floorLog2 n) + x) := by
      conv_lhs =>
        rw [show n = (n - 2 ^ floorLog2 n) + (n - (n - 2 ^ floorLog2 n)) by omega]
      rw [List.range_add]
    rw [hsplit, List.filter_append, List.length_append]
    have hA : (List.range (n - 2 ^ floorLog2 n)).filter (fun r =>
        (RecursiveHalvingMap.Construct r n).type
          = RecursiveHalvingNodeType.GroupLeader)
        = List.range (n - 2 ^ floorLog2 n) := by
      rw [List.filter_eq_self]
      intro a ha
      have ha2 : a < n - 2 ^ floorLog2 n := List.mem_range.1 ha
      have hap : a < 2 ^ floorLog2 n := by omega
      simp only [decide_eq_true_eq]
      exact (Construct_type_leader hap ha2).1
    have hB : ((List.range (n - (n - 2 ^ floorLog2 n))).map
        (fun x => (n - 2 ^ floorLog2 n) + x)).filter (fun r =>
          (RecursiveHalvingMap.Construct r n).type
            = RecursiveHalvingNodeType.GroupLeader) = [] := by
      rw [List.filter_eq_nil_iff]
      intro a ha
      rcases List.mem_map.1 ha with ⟨y, _, rfl⟩
      simp only [decide_eq_true_eq]
      by_cases hcase : (n - 2 ^ floorLog2 n) + y < 2 ^ floorLog2 n
      · rw [(Construct_type_normal hcase (by omega)).1]
        simp
      · rw [(Construct_type_other (by omega)).1]
        simp
    rw [hA, hB]
    simp
  · intro r hrp
    have hs := Construct_participant_shape hrp
    rw [Nat.log_pow (by norm_num)]
    exact ⟨hs.1, by rw [hs.1, hs.2.1], by rw [hs.1, hs.2.2.1],
      by rw [hs.1, hs.2.2.2.2.1]⟩

/-- C7 witness: at `n = 5` (so `p = 4`), rank 0 leads rank 4's group, there
is exactly one GroupLeader, and participant 2 runs `log2 p` rounds. -/
theorem C7_recursive_halving_grouping_witness :
    (RecursiveHalvingMap.Construct 0 5).type = RecursiveHalvingNodeType.GroupLeader ∧
    ((List.range 5).filter (fun r =>
      (RecursiveHalvingMap.Construct r 5).type
        = RecursiveHalvingNodeType.GroupLeader)).length = 5 - 2 ^ Nat.log 2 5 ∧
    (RecursiveHalvingMap.Construct 2 5).k = Nat.log 2 (2 ^ Nat.log 2 5) := by
  have hlog : Nat.log 2 5 = 2 :=
    Nat.log_eq_of_pow_le_of_lt_pow (by norm_num) (by norm_num)
  have h := C7_recursive_halving_grouping 5 (by norm_num)
    (by rw [hlog]; norm_num)
  refine ⟨((h.1 0 (by norm_num)).1 ?_).1, h.2.1, (h.2.2 2 ?_).1⟩
  · rw [hlog]
    norm_num
  · rw [hlog]
    norm_num

/-- Start of the window a participant retains after round `i - 1`, read off
its constructed map: the whole input (start 0) before round 0, the previous
round's `recv` range afterwards. -/
def rhPrevStart (n r i : Nat) : Nat :=
  if i = 0 then 0
  else (RecursiveHalvingMap.Construct r n).recv_block_start.getD (i - 1) 0

/-- Length of the window a participant retains after round `i - 1`, read off
its constructed map: the whole input (`2^k` logical blocks) before round 0,
the previous round's `recv` length afterwards. -/
def rhPrevLen (n r i : Nat) : Nat :=
  if i = 0 then 2 ^ (RecursiveHalvingMap.Construct r n).k
  else (RecursiveHalvingMap.Construct r n).recv_block_len.getD (i - 1) 0

/-- C8: for every `n ≥ 2` and every GroupLeader or Normal rank, in every
round `i < k` the send and recv block ranges each take exactly half of the
window retained after round `i - 1`, are adjacent and disjoint, and together
exactly tile that window; the retained window halves geometrically
(`2^(k-i)` blocks before round `i`, the whole input before round 0). -/
theorem C8_halving_block_ranges (n r i : Nat) (hn : 2 ≤ n) (hr : r < n)
    (hty : (RecursiveHalvingMap.Construct r n).type ≠ RecursiveHalvingNodeType.Other)
    (hi : i < (RecursiveHalvingMap.Construct r n).k) :
    (RecursiveHalvingMap.Construct r n).send_block_len.getD i 0 = rhPrevLen n r i / 2 ∧
    (RecursiveHalvingMap.Construct r n).recv_block_len.getD i 0 = rhPrevLen n r i / 2 ∧
    (((RecursiveHalvingMap.Construct r n).send_block_start.getD i 0 = rhPrevStart n r i ∧
      (RecursiveHalvingMap.Construct r n).recv_block_start.getD i 0
        = rhPrevStart n r i + rhPrevLen n r i / 2) ∨
     ((RecursiveHalvingMap.Construct r n).recv_block_start.getD i 0 = rhPrevStart n r i ∧
      (RecursiveHalvingMap.Construct r n).send_block_start.getD i 0
        = rhPrevStart n r i + rhPrevLen n r i / 2)) ∧
    rhPrevLen n r i = 2 ^ ((RecursiveHalvingMap.Construct r n).k - i) := by
  have hn1 : 1 ≤ n := by omega
  have hrp : r < 2 ^ floorLog2 n := by
    by_contra hcon
    push_neg at hcon
    exact hty (Construct_type_other hcon).1
  have hk : (RecursiveHalvingMap.Construct r n).k = floorLog2 n :=
    (Construct_participant_shape hrp).1
  rw [hk] at hi
  have hh : 0 < 2 ^ (floorLog2 n - 1 - i) := Nat.pos_pow_of_pos _ (by norm_num)
  have hL : 2 ^ (floorLog2 n - i) = 2 * 2 ^ (floorLog2 n - 1 - i) := pow_sub_succ hi
  have hre := Construct_recv_start_eq hrp hi
  have hprevL : rhPrevLen n r i = 2 ^ (floorLog2 n - i) := by
    unfold rhPrevLen
    by_cases h0 : i = 0
    · subst h0
      rw [if_pos rfl, hk, Nat.sub_zero]
    · rw [if_neg h0, Construct_recv_len_getD hrp (by omega) 0]
      congr 1
      omega
  have hprevS : rhPrevStart n r i = r - r % 2 ^ (floorLog2 n - i) := by
    unfold rhPrevStart
    by_cases h0 : i = 0
    · subst h0
      rw [if_pos rfl]
      have he : floorLog2 n - 0 = floorLog2 n := by omega
      rw [he, Nat.mod_eq_of_lt hrp]
      omega
    · rw [if_neg h0, Construct_recv_start_eq hrp (by omega)]
      have he : floorLog2 n - 1 - (i - 1) = floorLog2 n - i := by omega
      rw [he]
  have hhalf : rhPrevLen n r i / 2 = 2 ^ (floorLog2 n - 1 - i) := by
    rw [hprevL, hL]
    exact Nat.mul_div_cancel_left _ (by norm_num)
  refine ⟨?_, ?_, ?_, ?_⟩
  · rw [Construct_send_len_getD hrp hi, hhalf]
  · rw [Construct_recv_len_getD hrp hi, hhalf]
  · by_cases hside : r % 2 ^ (floorLog2 n - i) < 2 ^ (floorLog2 n - 1 - i)
    · refine Or.inr ⟨?_, ?_⟩
      · rw [hre, hprevS]
        have hside2 : r % (2 * 2 ^ (floorLog2 n - 1 - i)) < 2 ^ (floorLog2 n - 1 - i) := by
          rw [← hL]
          exact hside
        have hms := mod_small_of_lt hside2
        rw [hL, ← hms]
      · rw [Construct_send_start_getD hrp hi, if_pos hside, hprevS, hhalf]
    · push_neg at hside
      refine Or.inl ⟨?_, ?_⟩
      · rw [Construct_send_start_getD hrp hi, if_neg (Nat.not_lt.2 hside), hprevS]
      · rw [hre, hprevS, hhalf]
        have hside2 : 2 ^ (floorLog2 n - 1 - i) ≤ r % (2 * 2 ^ (floorLog2 n - 1 - i)) := by
          rw [← hL]
          exact hside
        have hml := mod_large_of_ge hh hside2
        have hle := Nat.mod_le r (2 * 2 ^ (floorLog2 n - 1 - i))
        rw [hL]
        omega
  · rw [hk]
    exact hprevL

/-- C8 witness: at `n = 5`, participant 2, round 1: the shipped range is half
of the window retained after round 0. -/
theorem C8_halving_block_ranges_witness :
    (RecursiveHalvingMap.Construct 2 5).send_block_len.getD 1 0
      = rhPrevLen 5 2 1 / 2 :=
  (C8_halving_block_ranges 5 2 1 (by norm_num) (by norm_num) (by decide)
    (by decide)).1

end LightGBM
